import Mathlib

/-
  Verification of the Tempo RSVP reading engine.

  A shallow embedding of the playback engine (src/unnamed/part_002, the
  content-item variant of RSVPEngine) and the ORP calculator (src/js/orp.js).
  Strings are modeled as Lean strings, character processing works on lists of
  characters, JS timers are modeled as explicit pending-timer fields, and
  callback invocations are recorded in an event trace field.  Machine
  arithmetic of the source is plain JS number arithmetic on small values;
  intervals are modeled with exact rationals.
-/

set_option linter.unusedVariables false

namespace Tempo

/-- Whitespace test modeling the ASCII part of the JS character class used by
the splitting regexes. -/
def isWs (c : Char) : Bool :=
  c == ' ' || c == '\t' || c == '\n' || c == '\r' || c == '\x0b' || c == '\x0c'

/-- Content item of the engine sequence: a word, a paragraph break, or a
special block (image, code, table). -/
inductive Item where
  | word (value : String)
  | pbreak
  | special (contentType : String) (html : String)
deriving DecidableEq, Repr

def isWord : Item → Bool
  | Item.word _ => true
  | _ => false

def isBreak : Item → Bool
  | Item.pbreak => true
  | _ => false

def isSpecial : Item → Bool
  | Item.special _ _ => true
  | _ => false

/-- Callback invocations of the engine, recorded as an event trace. -/
inductive Event where
  | wordChange
  | stateChange (playing : Bool)
  | progress
  | paragraphBreak
  | specialShown (it : Item) (countdown : Int)
  | countdownTick (remaining : Option Int)
  | specialEnd
deriving DecidableEq, Repr

/-- The kind of callback held by the single word timeout slot. -/
inductive Timer where
  | word
  | pbreak
deriving DecidableEq, Repr

/-- The mutable fields of RSVPEngine, plus the recorded event trace. -/
structure State where
  items : List Item
  words : List String
  sentenceStarts : List Nat
  paragraphEnds : List Nat
  currentIndex : Nat
  isPlaying : Bool
  wpm : ℚ
  pendingTimer : Option Timer
  easeInCount : Nat
  specialCountdown : Int
  specialPaused : Bool
  countdownActive : Bool
  isShowingSpecialContent : Bool
  lastBackPressTime : Int
  lastSkipToSentenceIdx : Int
  events : List Event
deriving DecidableEq, Repr

/-- calculateORP from src/js/orp.js. -/
def calculateORP (word : String) : Nat :=
  let len := word.length
  if len ≤ 1 then 0
  else if len ≤ 5 then 1
  else if len ≤ 9 then 2
  else if len ≤ 13 then 3
  else 4

structure OrpParts where
  before : String
  orp : String
  after : String
deriving DecidableEq, Repr

/-- splitAtORP from src/js/orp.js; the middle part is empty when the index is
out of bounds. -/
def splitAtORP (word : String) : OrpParts :=
  let idx := calculateORP word
  { before := String.mk (word.toList.take idx)
  , orp := match word.toList.get? idx with
           | some c => String.mk [c]
           | none => ""
  , after := String.mk (word.toList.drop (idx + 1)) }

/-! ### Text splitting

JS `text.split(regex)` over the blank-line regex matches, at a newline, up to
the last newline of the maximal whitespace run around it (greedy star with
backtracking to the final newline).  So a maximal whitespace run containing at
least two newlines acts as exactly one separator, from its first to its last
newline; the surrounding whitespace of the run stays with the neighbor
fragments.  We split the text into maximal runs of equal whitespace-ness and
reassemble. -/

def charRunsAux : List Char → List Char → List (List Char)
  | [], acc => if acc.isEmpty then [] else [acc.reverse]
  | c :: rest, acc =>
    match acc with
    | [] => charRunsAux rest [c]
    | a :: _ =>
      if isWs a = isWs c then charRunsAux rest (c :: acc)
      else acc.reverse :: charRunsAux rest [c]

/-- Maximal runs of characters with equal whitespace-ness. -/
def charRuns (l : List Char) : List (List Char) := charRunsAux l []

def beforeFirstNL (r : List Char) : List Char := r.takeWhile (fun c => !(c == '\n'))

/-- The suffix after the last newline (the whole list when it has none). -/
def afterLastNL : List Char → List Char
  | [] => []
  | c :: rest =>
    if '\n' ∈ rest then afterLastNL rest
    else if c = '\n' then rest
    else c :: rest

/-- A whitespace run acts as a paragraph separator exactly when it contains at
least two newline characters. -/
def isSepRun (r : List Char) : Bool :=
  r.all isWs && decide (2 ≤ r.countP (fun c => c == '\n'))

def mapHead (f : List Char → List Char) : List (List Char) → List (List Char)
  | [] => [f []]
  | x :: xs => f x :: xs

def reasm : List (List Char) → List (List Char)
  | [] => [[]]
  | r :: rest =>
    if isSepRun r then beforeFirstNL r :: mapHead (fun f => afterLastNL r ++ f) (reasm rest)
    else mapHead (fun f => r ++ f) (reasm rest)

/-- Model of the JS split over the blank-line separator regex. -/
def splitParas (l : List Char) : List (List Char) := reasm (charRuns l)

/-- Model of JS String.trim: strip whitespace from both ends. -/
def jsTrim (l : List Char) : List Char :=
  ((l.dropWhile isWs).reverse.dropWhile isWs).reverse

/-- Em and en dashes are kept and get a trailing space inserted. -/
def dashSpace : List Char → List Char
  | [] => []
  | c :: rest =>
    if c = '—' ∨ c = '–' then c :: ' ' :: dashSpace rest
    else c :: dashSpace rest

/-- A double hyphen becomes an em dash followed by a space. -/
def dblHyphen : List Char → List Char
  | '-' :: '-' :: rest => '—' :: ' ' :: dblHyphen rest
  | c :: rest => c :: dblHyphen rest
  | [] => []

/-- Remaining single hyphens become plain spaces. -/
def hyphenToSpace (l : List Char) : List Char :=
  l.map (fun c => if c = '-' then ' ' else c)

def processPara (l : List Char) : List Char := hyphenToSpace (dblHyphen (dashSpace l))

def splitWsAux : List Char → List Char → List (List Char)
  | [], acc => if acc.isEmpty then [] else [acc.reverse]
  | c :: rest, acc =>
    if isWs c then
      (if acc.isEmpty then splitWsAux rest [] else acc.reverse :: splitWsAux rest [])
    else splitWsAux rest (c :: acc)

/-- Split on runs of whitespace, dropping empty tokens (JS split on a
whitespace-plus regex followed by the nonempty filter). -/
def splitWs (l : List Char) : List (List Char) := splitWsAux l []

/-- The regex test for a word that ends a sentence: last character is one of
period, bang, question mark. -/
def endsPunctL (w : List Char) : Bool :=
  match w.getLast? with
  | some c => c == '.' || c == '!' || c == '?'
  | none => false

def endsPunct (w : String) : Bool := endsPunctL w.toList

/-! ### Content ingestion -/

/-- Accumulator for the parsing loops: the four sequence fields being rebuilt
plus the running word index. -/
structure ParseAcc where
  words : List String
  items : List Item
  sentenceStarts : List Nat
  paragraphEnds : List Nat
  wordIndex : Nat
deriving DecidableEq, Repr

/-- Inner word loop of setText.  A sentence start is recorded after a
punctuation-ending word unless it is the last raw word and there is no later
paragraph. -/
def pushWordsLoop (moreParas : Bool) : List (List Char) → ParseAcc → ParseAcc
  | [], a => a
  | w :: rest, a =>
    let a1 := { a with words := a.words ++ [String.mk w]
                     , items := a.items ++ [Item.word (String.mk w)] }
    let a2 := if endsPunctL w = true ∧ (rest ≠ [] ∨ moreParas = true) then
        { a1 with sentenceStarts := a1.sentenceStarts ++ [a1.wordIndex + 1] }
      else a1
    pushWordsLoop moreParas rest { a2 with wordIndex := a2.wordIndex + 1 }

/-- Paragraph loop of setText: empty-trimming fragments are skipped, and a
paragraph break item is appended after every paragraph that is not the last
fragment, provided some word exists. -/
def setTextLoop : List (List Char) → ParseAcc → ParseAcc
  | [], a => a
  | pf :: rest, a =>
    let para := jsTrim pf
    if para = [] then setTextLoop rest a
    else
      let rawWords := splitWs (processPara para)
      let a1 := pushWordsLoop (rest ≠ []) rawWords a
      let a2 := if rest ≠ [] ∧ 0 < a1.words.length then
          { a1 with paragraphEnds := a1.paragraphEnds ++ [a1.items.length - 1]
                  , items := a1.items ++ [Item.pbreak] }
        else a1
      setTextLoop rest a2

def emptyAcc : ParseAcc := ⟨[], [], [0], [], 0⟩

/-- Loop of setContent: scan the given items, collecting words, sentence
starts (after every punctuation-ending word, with no final-word exception) and
paragraph ends. -/
def setContentLoop : List Item → Nat → ParseAcc → ParseAcc
  | [], _, a => a
  | it :: rest, i, a =>
    match it with
    | Item.word v =>
      let a1 := { a with words := a.words ++ [v] }
      let a2 := if endsPunct v = true then
          { a1 with sentenceStarts := a1.sentenceStarts ++ [a1.wordIndex + 1] }
        else a1
      setContentLoop rest (i + 1) { a2 with wordIndex := a2.wordIndex + 1 }
    | Item.pbreak =>
      setContentLoop rest (i + 1)
        (if 0 < i then { a with paragraphEnds := a.paragraphEnds ++ [i - 1] } else a)
    | Item.special _ _ => setContentLoop rest (i + 1) a

/-! ### Engine operations -/

/-- clearSpecialContent: cancel the countdown, reset the special flags, and
fire the special-content-end callback unconditionally. -/
def clearSpecialContent (s : State) : State :=
  { s with countdownActive := false, specialCountdown := 0, specialPaused := false
         , isShowingSpecialContent := false
         , events := s.events ++ [Event.specialEnd] }

def scheduleNext (s : State) : State :=
  if s.isPlaying then { s with pendingTimer := some Timer.word } else s

/-- showSpecialContent: cancel both timers, reset the countdown to the fixed
five second duration, raise the display flag, notify, and start the interval. -/
def showSpecialContent (it : Item) (s : State) : State :=
  { s with pendingTimer := none, specialCountdown := 5, specialPaused := false
         , isShowingSpecialContent := true, countdownActive := true
         , events := s.events ++ [Event.specialShown it 5] }

def pause (s : State) : State :=
  if s.isPlaying then
    let s1 := if s.countdownActive then
        { s with countdownActive := false, specialPaused := true
               , events := s.events ++ [Event.countdownTick none] }
      else s
    { s1 with isPlaying := false, pendingTimer := none
            , events := s1.events ++ [Event.stateChange false] }
  else s

def stopCore (s : State) : State :=
  { s with currentIndex := 0, easeInCount := 0
         , events := s.events ++ [Event.wordChange, Event.progress] }

def stop (s : State) : State := stopCore (clearSpecialContent (pause s))

/-- The while loop of advanceToNext that steps the index past consecutive
paragraph break items (bounded by the sequence length). -/
def skipBreaks (s : State) : State :=
  { s with currentIndex :=
      s.currentIndex + ((s.items.drop s.currentIndex).takeWhile isBreak).length }

mutual
/-- advanceToNext with explicit fuel (the source loops terminate because the
index strictly increases; fuel larger than the sequence length is enough). -/
def advanceToNextF : Nat → State → State
  | 0, s => s
  | fuel + 1, s =>
    let s1 := skipBreaks { s with currentIndex := s.currentIndex + 1 }
    if s1.currentIndex < s1.items.length then processCurrentItemF fuel s1 else pause s1
/-- processCurrentItem with explicit fuel. -/
def processCurrentItemF : Nat → State → State
  | 0, s => s
  | fuel + 1, s =>
    match s.items.get? s.currentIndex with
    | none => pause s
    | some (Item.special c h) => showSpecialContent (Item.special c h) s
    | some (Item.word _) =>
      scheduleNext { s with easeInCount := s.easeInCount + 1
                          , events := s.events ++ [Event.wordChange, Event.progress] }
    | some Item.pbreak => advanceToNextF fuel s
end

def advanceToNextTop (s : State) : State := advanceToNextF (s.items.length + 2) s

/-- endSpecialContent: cancel the countdown, drop the display flag, notify end
and progress, then advance past paragraph breaks to the next item. -/
def endSpecialContent (s : State) : State :=
  advanceToNextTop
    { s with countdownActive := false, isShowingSpecialContent := false
           , events := s.events ++ [Event.specialEnd, Event.progress] }

def skipSpecialContent (s : State) : State × Bool :=
  if s.isShowingSpecialContent then (endSpecialContent s, true) else (s, false)

/-- The fixed ease-in factor table. -/
def easeFactors : List ℚ := [0.5, 0.6, 0.7, 0.85, 1.0]

/-- getInterval: base interval 60000 / wpm, divided by the ease-in factor for
the first five words after play. -/
def getInterval (s : State) : ℚ :=
  let baseInterval : ℚ := 60000 / s.wpm
  if s.easeInCount < 5 then baseInterval / easeFactors.getD s.easeInCount 1
  else baseInterval

def play (s : State) : State :=
  if s.isPlaying then s
  else if s.specialPaused then
    let s1 := { s with specialPaused := false, isShowingSpecialContent := false
                     , events := s.events ++ [Event.specialEnd] }
    let s2 := { s1 with isPlaying := true, events := s1.events ++ [Event.stateChange true] }
    advanceToNextTop s2
  else
    let s1 := if s.items.length ≤ s.currentIndex + 1 then
        { s with currentIndex := 0, events := s.events ++ [Event.wordChange, Event.progress] }
      else s
    let s2 := { s1 with isPlaying := true, easeInCount := 0
                      , events := s1.events ++ [Event.stateChange true] }
    match s2.items.get? s2.currentIndex with
    | some (Item.special c h) => showSpecialContent (Item.special c h) s2
    | _ => scheduleNext s2

def toggle (s : State) : State := if s.isPlaying then pause s else play s

/-- advance (the synchronous part of the word timer callback).  When the next
item is a paragraph break the break signal fires and the rest of the step is
deferred to the 500 ms continuation timer. -/
def advance (s : State) : State :=
  if s.currentIndex + 1 < s.items.length then
    let s1 := { s with currentIndex := s.currentIndex + 1 }
    if (s1.items.get? s1.currentIndex).any isBreak then
      { s1 with events := s1.events ++ [Event.paragraphBreak]
              , pendingTimer := some Timer.pbreak }
    else processCurrentItemF (s1.items.length + 2) s1
  else pause s

/-- Firing of the pending timeout: either the word advance or the 500 ms
paragraph-break continuation. -/
def fireTimer (s : State) : State :=
  match s.pendingTimer with
  | none => s
  | some Timer.word => advance { s with pendingTimer := none }
  | some Timer.pbreak =>
    let s1 := { s with pendingTimer := none, currentIndex := s.currentIndex + 1 }
    if s1.currentIndex < s1.items.length then processCurrentItemF (s1.items.length + 2) s1
    else pause s1

/-- One tick of the once-per-second countdown interval. -/
def fireCountdownTick (s : State) : State :=
  if s.countdownActive then
    let s1 := { s with specialCountdown := s.specialCountdown - 1 }
    let s2 := { s1 with events := s1.events ++ [Event.countdownTick (some s1.specialCountdown)] }
    if s2.specialCountdown ≤ 0 then endSpecialContent s2 else s2
  else s

def jumpToIndex (i : Int) (s : State) : State :=
  if 0 ≤ i ∧ i < (s.items.length : Int) then
    { s with currentIndex := i.toNat, easeInCount := 0
           , events := s.events ++ [Event.wordChange, Event.progress] }
  else s

def setWPM (w : ℚ) (s : State) : State := { s with wpm := max 100 (min 1000 w) }

def setText (text : String) (s : State) : State :=
  let s0 := stop s
  let a := setTextLoop (splitParas (jsTrim text.toList)) emptyAcc
  { s0 with words := a.words, items := a.items, sentenceStarts := a.sentenceStarts
          , paragraphEnds := a.paragraphEnds, currentIndex := 0
          , events := s0.events ++ [Event.wordChange, Event.progress] }

def setContent (l : List Item) (s : State) : State :=
  let s0 := stop s
  let a := setContentLoop l 0 emptyAcc
  { s0 with items := l, words := a.words, sentenceStarts := a.sentenceStarts
          , paragraphEnds := a.paragraphEnds, currentIndex := 0
          , events := s0.events ++ [Event.wordChange, Event.progress] }

/-! ### Sentence and word navigation -/

/-- Number of word items strictly before item index n. -/
def countWordsBefore (items : List Item) (n : Nat) : Nat := (items.take n).countP isWord

def lastIdxLtAux : List Nat → Nat → Nat → Nat → Nat
  | [], _, _, acc => acc
  | x :: rest, c, i, acc => lastIdxLtAux rest c (i + 1) (if x < c then i else acc)

/-- Index into sentenceStarts of the last entry below the current word index,
defaulting to 0 (the downward scan of the source). -/
def lastIdxLt (starts : List Nat) (c : Nat) : Nat := lastIdxLtAux starts c 0 0

/-- First sentence start strictly above the current word index, defaulting to
the current word index itself. -/
def firstGt (starts : List Nat) (c : Nat) : Nat :=
  match starts.find? (fun x => decide (c < x)) with
  | some x => x
  | none => c

/-- The scan translating a word index back to an item index: the index of the
matching word item, if any. -/
def itemIdxOfWordAux : List Item → Nat → Nat → Nat → Option Nat
  | [], _, _, _ => none
  | it :: rest, target, i, wc =>
    if isWord it then
      (if wc = target then some i else itemIdxOfWordAux rest target (i + 1) (wc + 1))
    else itemIdxOfWordAux rest target (i + 1) wc

def findSpecialDownAux : List Item → Nat → Nat → Nat → Option Nat → Option Nat
  | [], _, _, _, acc => acc
  | it :: rest, lo, hi, i, acc =>
    findSpecialDownAux rest lo hi (i + 1)
      (if lo ≤ i ∧ i ≤ hi ∧ isSpecial it = true then some i else acc)

/-- Largest index in [lo, hi] holding a special item (the downward scan of
previousSentence). -/
def findSpecialDown (items : List Item) (lo hi : Nat) : Option Nat :=
  findSpecialDownAux items lo hi 0 none

def findSpecialUpAux : List Item → Nat → Nat → Nat → Option Nat
  | [], _, _, _ => none
  | it :: rest, lo, hi, i =>
    if lo ≤ i ∧ i ≤ hi ∧ isSpecial it = true then some i
    else findSpecialUpAux rest lo hi (i + 1)

/-- Smallest index in [lo, hi] holding a special item (the upward scan of
nextSentence, which returns at the first hit). -/
def findSpecialUp (items : List Item) (lo hi : Nat) : Option Nat :=
  findSpecialUpAux items lo hi 0

/-- Body of previousSentence after the initial clearSpecialContent call. -/
def prevSentenceCore (now : Int) (s : State) : State :=
  let wasPaused := !s.isPlaying
  let startIndex := s.currentIndex
  let cwi := countWordsBefore s.items startIndex
  let tIdx0 := lastIdxLt s.sentenceStarts cwi
  let tIdx := if wasPaused = false ∧ now - s.lastBackPressTime < 800 ∧
                 0 ≤ s.lastSkipToSentenceIdx ∧ (tIdx0 : Int) = s.lastSkipToSentenceIdx ∧
                 0 < tIdx0
              then tIdx0 - 1 else tIdx0
  let targetWordIndex := s.sentenceStarts.getD tIdx 0
  let targetIndex := (itemIdxOfWordAux s.items targetWordIndex 0 0).getD 0
  let specialHit : Option Nat :=
    match startIndex with
    | 0 => none
    | k + 1 => findSpecialDown s.items targetIndex k
  match specialHit with
  | some i =>
    let s1 := { s with currentIndex := i, easeInCount := 0
                     , events := s.events ++ [Event.progress] }
    let s2 := if wasPaused then { s1 with events := s1.events ++ [Event.wordChange] }
              else showSpecialContent ((s1.items.get? i).getD Item.pbreak) s1
    { s2 with lastBackPressTime := 0, lastSkipToSentenceIdx := -1 }
  | none =>
    let s1 := { s with currentIndex := targetIndex, easeInCount := 0
                     , events := s.events ++ [Event.wordChange, Event.progress] }
    let cameFromSpecial := (s1.items.get? startIndex).any isSpecial
    let s2 := if wasPaused || cameFromSpecial then
        { s1 with lastBackPressTime := 0, lastSkipToSentenceIdx := -1 }
      else { s1 with lastBackPressTime := now, lastSkipToSentenceIdx := (tIdx : Int) }
    if wasPaused = false ∧ s2.isPlaying = true then scheduleNext { s2 with pendingTimer := none }
    else s2

def previousSentence (now : Int) (s : State) : State :=
  prevSentenceCore now (clearSpecialContent s)

/-- Body of nextSentence after the initial clearSpecialContent call. -/
def nextSentenceCore (s : State) : State :=
  let wasPaused := !s.isPlaying
  let startIndex := s.currentIndex
  let cwi := countWordsBefore s.items startIndex
  let targetWordIndex := firstGt s.sentenceStarts cwi
  let targetIndex0 := (itemIdxOfWordAux s.items targetWordIndex 0 0).getD s.currentIndex
  let targetIndex := min targetIndex0 (s.items.length - 1)
  match findSpecialUp s.items (startIndex + 1) targetIndex with
  | some i =>
    let s1 := { s with currentIndex := i, easeInCount := 0
                     , events := s.events ++ [Event.progress] }
    if wasPaused then { s1 with events := s1.events ++ [Event.wordChange] }
    else showSpecialContent ((s1.items.get? i).getD Item.pbreak) s1
  | none =>
    let s1 := { s with currentIndex := targetIndex, easeInCount := 0
                     , events := s.events ++ [Event.wordChange, Event.progress] }
    if wasPaused = false ∧ s1.isPlaying = true then scheduleNext { s1 with pendingTimer := none }
    else s1

def nextSentence (s : State) : State := nextSentenceCore (clearSpecialContent s)

/-- The backwards while loop of previousWord: step down past paragraph breaks,
stopping at index 0. -/
def skipBreaksBack (items : List Item) : Nat → Nat
  | 0 => 0
  | j + 1 => if (items.get? (j + 1)).any isBreak then skipBreaksBack items j else j + 1

def prevWordCore (s : State) : State :=
  if 0 < s.currentIndex then
    { s with currentIndex := skipBreaksBack s.items (s.currentIndex - 1)
           , events := s.events ++ [Event.wordChange, Event.progress] }
  else s

def previousWord (s : State) : State := prevWordCore (clearSpecialContent s)

def nextWordCore (s : State) : State :=
  if s.currentIndex + 1 < s.items.length then
    let start := s.currentIndex + 1
    let k := ((s.items.drop start).takeWhile isBreak).length
    { s with currentIndex := min (start + k) (s.items.length - 1)
           , events := s.events ++ [Event.wordChange, Event.progress] }
  else s

def nextWord (s : State) : State := nextWordCore (clearSpecialContent s)

/-- A bare engine state used to instantiate concrete test scenarios. -/
def blankState : State :=
  { items := [], words := [], sentenceStarts := [0], paragraphEnds := []
  , currentIndex := 0, isPlaying := false, wpm := 250, pendingTimer := none
  , easeInCount := 0, specialCountdown := 0, specialPaused := false
  , countdownActive := false, isShowingSpecialContent := false
  , lastBackPressTime := 0, lastSkipToSentenceIdx := -1, events := [] }

/-- Concrete five-word state with four sentence starts, positioned at the last
word, used to exercise the double back-press behaviour. -/
def c9demo : State :=
  { blankState with
      items := [Item.word "a.", Item.word "b.", Item.word "c.", Item.word "d", Item.word "e"]
    , sentenceStarts := [0, 1, 2, 3], currentIndex := 4, isPlaying := true }

/-- Soundness of the sentence-start list: the running word index tracks the
word count, and every recorded start besides 0 follows a punctuation-ending
word. -/
def SoundAcc (a : ParseAcc) : Prop :=
  a.wordIndex = a.words.length ∧
  ∀ x ∈ a.sentenceStarts, x = 0 ∨
    ∃ w v, a.words.get? w = some v ∧ endsPunct v = true ∧ x = w + 1

/-- Completeness: every punctuation-ending word has its successor recorded. -/
def CompleteAcc (a : ParseAcc) : Prop :=
  a.wordIndex = a.words.length ∧
  ∀ w v, a.words.get? w = some v → endsPunct v = true → w + 1 ∈ a.sentenceStarts

/-- Weak completeness: the final word of the text is exempt. -/
def CompleteAccW (a : ParseAcc) : Prop :=
  a.wordIndex = a.words.length ∧
  ∀ w v, a.words.get? w = some v → endsPunct v = true →
    w + 1 ∈ a.sentenceStarts ∨ w + 1 = a.words.length

/-- Exact characterisation of the sentence starts built by setContent. -/
def IffAcc (a : ParseAcc) : Prop :=
  a.wordIndex = a.words.length ∧
  ∀ x, x ∈ a.sentenceStarts ↔ (x = 0 ∨
    ∃ w v, a.words.get? w = some v ∧ endsPunct v = true ∧ x = w + 1)

/-! ### Field preservation lemmas -/

@[simp] theorem clearSpecialContent_items (s : State) :
    (clearSpecialContent s).items = s.items := rfl

@[simp] theorem clearSpecialContent_words (s : State) :
    (clearSpecialContent s).words = s.words := rfl

@[simp] theorem clearSpecialContent_sentenceStarts (s : State) :
    (clearSpecialContent s).sentenceStarts = s.sentenceStarts := rfl

@[simp] theorem clearSpecialContent_currentIndex (s : State) :
    (clearSpecialContent s).currentIndex = s.currentIndex := rfl

@[simp] theorem clearSpecialContent_isPlaying (s : State) :
    (clearSpecialContent s).isPlaying = s.isPlaying := rfl

@[simp] theorem clearSpecialContent_lastBackPressTime (s : State) :
    (clearSpecialContent s).lastBackPressTime = s.lastBackPressTime := rfl

@[simp] theorem clearSpecialContent_lastSkipToSentenceIdx (s : State) :
    (clearSpecialContent s).lastSkipToSentenceIdx = s.lastSkipToSentenceIdx := rfl

@[simp] theorem clearSpecialContent_events (s : State) :
    (clearSpecialContent s).events = s.events ++ [Event.specialEnd] := rfl

@[simp] theorem scheduleNext_items (s : State) : (scheduleNext s).items = s.items := by
  unfold scheduleNext; split <;> rfl

@[simp] theorem scheduleNext_currentIndex (s : State) :
    (scheduleNext s).currentIndex = s.currentIndex := by
  unfold scheduleNext; split <;> rfl

@[simp] theorem scheduleNext_events (s : State) : (scheduleNext s).events = s.events := by
  unfold scheduleNext; split <;> rfl

@[simp] theorem scheduleNext_isPlaying (s : State) :
    (scheduleNext s).isPlaying = s.isPlaying := by
  unfold scheduleNext; split <;> rfl

@[simp] theorem showSpecialContent_items (it : Item) (s : State) :
    (showSpecialContent it s).items = s.items := rfl

@[simp] theorem showSpecialContent_currentIndex (it : Item) (s : State) :
    (showSpecialContent it s).currentIndex = s.currentIndex := rfl

@[simp] theorem showSpecialContent_events (it : Item) (s : State) :
    (showSpecialContent it s).events = s.events ++ [Event.specialShown it 5] := rfl

@[simp] theorem pause_items (s : State) : (pause s).items = s.items := by
  unfold pause; split <;> [split <;> rfl; rfl]

@[simp] theorem pause_words (s : State) : (pause s).words = s.words := by
  unfold pause; split <;> [split <;> rfl; rfl]

@[simp] theorem pause_sentenceStarts (s : State) :
    (pause s).sentenceStarts = s.sentenceStarts := by
  unfold pause; split <;> [split <;> rfl; rfl]

@[simp] theorem pause_currentIndex (s : State) :
    (pause s).currentIndex = s.currentIndex := by
  unfold pause; split <;> [split <;> rfl; rfl]

theorem pause_events_ext (s : State) : ∃ l, (pause s).events = s.events ++ l := by
  unfold pause
  split
  · split
    · exact ⟨[Event.countdownTick none, Event.stateChange false], by simp⟩
    · exact ⟨[Event.stateChange false], rfl⟩
  · exact ⟨[], by simp⟩

/-! ### Lemmas about the text splitting pipeline -/

theorem mem_dropWhile_of_not {c : Char} {p : Char → Bool} {l : List Char}
    (hc : c ∈ l) (hp : p c = false) : c ∈ l.dropWhile p := by
  induction l with
  | nil => cases hc
  | cons a t ih =>
    rw [List.dropWhile_cons]
    split
    · rcases List.mem_cons.mp hc with h | h
      · subst h; simp_all
      · exact ih h
    · exact hc

theorem mem_jsTrim {c : Char} {l : List Char} (hc : c ∈ l) (hp : isWs c = false) :
    c ∈ jsTrim l := by
  unfold jsTrim
  rw [List.mem_reverse]
  refine mem_dropWhile_of_not ?_ hp
  rw [List.mem_reverse]
  exact mem_dropWhile_of_not hc hp

theorem charRunsAux_flatten (l acc : List Char) :
    (charRunsAux l acc).flatten = acc.reverse ++ l := by
  induction l generalizing acc with
  | nil =>
    rw [charRunsAux]
    split
    · simp_all [List.isEmpty_iff]
    · simp
  | cons c rest ih =>
    cases acc with
    | nil => rw [charRunsAux]; simpa using ih [c]
    | cons a t =>
      rw [charRunsAux]
      split
      · rw [ih]; simp
      · rw [List.flatten_cons, ih]; simp

theorem mapHead_ne_nil (f : List Char → List Char) (rs : List (List Char)) :
    mapHead f rs ≠ [] := by
  cases rs <;> simp [mapHead]

theorem reasm_ne_nil (rs : List (List Char)) : reasm rs ≠ [] := by
  cases rs with
  | nil => simp [reasm]
  | cons r rest =>
    rw [reasm]
    split
    · simp
    · exact mapHead_ne_nil _ _

theorem mem_mapHead_append {pre : List Char} {rs : List (List Char)} {c : Char}
    (h : ∃ fr ∈ rs, c ∈ fr) :
    ∃ fr ∈ mapHead (fun f => pre ++ f) rs, c ∈ fr := by
  obtain ⟨fr, hfr, hc⟩ := h
  cases rs with
  | nil => cases hfr
  | cons x xs =>
    rcases List.mem_cons.mp hfr with h | h
    · subst h
      exact ⟨pre ++ fr, List.mem_cons_self _ _, List.mem_append_right _ hc⟩
    · exact ⟨fr, List.mem_cons_of_mem _ h, hc⟩

theorem reasm_mem {rs : List (List Char)} {c : Char}
    (hall : ∃ r ∈ rs, c ∈ r) (hc : isWs c = false) :
    ∃ fr ∈ reasm rs, c ∈ fr := by
  induction rs with
  | nil => obtain ⟨r, hr, _⟩ := hall; cases hr
  | cons r rest ih =>
    obtain ⟨r0, hr0, hcr⟩ := hall
    rw [reasm]
    split
    case isTrue hsep =>
      rcases List.mem_cons.mp hr0 with h | h
      · subst h
        have hws : isWs c = true := by
          have hall2 := (Bool.and_eq_true _ _).mp hsep |>.1
          exact List.all_eq_true.mp hall2 c hcr
        rw [hws] at hc; cases hc
      · obtain ⟨fr, hfr, hc2⟩ := @mem_mapHead_append (afterLastNL r) _ _ (ih ⟨r0, h, hcr⟩)
        exact ⟨fr, List.mem_cons_of_mem _ hfr, hc2⟩
    case isFalse hsep =>
      rcases List.mem_cons.mp hr0 with h | h
      · subst h
        obtain ⟨x, xs, hx⟩ := List.exists_cons_of_ne_nil (reasm_ne_nil rest)
        rw [hx]
        exact ⟨r0 ++ x, by simp [mapHead], List.mem_append_left _ hcr⟩
      · exact @mem_mapHead_append r _ _ (ih ⟨r0, h, hcr⟩)

theorem splitParas_mem {l : List Char} {c : Char} (hc : c ∈ l) (hws : isWs c = false) :
    ∃ fr ∈ splitParas l, c ∈ fr := by
  refine reasm_mem ?_ hws
  have : c ∈ (charRuns l).flatten := by
    unfold charRuns; rw [charRunsAux_flatten]; simpa using hc
  exact List.mem_flatten.mp this

theorem dashSpace_mem {c : Char} {l : List Char} (hc : c ∈ l) : c ∈ dashSpace l := by
  induction l with
  | nil => cases hc
  | cons a t ih =>
    rw [dashSpace]
    rcases List.mem_cons.mp hc with h | h
    · subst h; split <;> simp
    · split <;> simp [ih h]

theorem dblHyphen_mem {c : Char} {l : List Char} (hc : c ∈ l) (hd : c ≠ '-') :
    c ∈ dblHyphen l := by
  induction l using dblHyphen.induct with
  | case1 rest ih =>
    rw [dblHyphen]
    rcases List.mem_cons.mp hc with h | h
    · exact absurd h hd
    · rcases List.mem_cons.mp h with h2 | h2
      · exact absurd h2 hd
      · simp [ih h2]
  | case2 a rest hne ih =>
    rw [dblHyphen]
    · rcases List.mem_cons.mp hc with h | h
      · subst h; exact List.mem_cons_self _ _
      · exact List.mem_cons_of_mem _ (ih h)
    · exact hne
  | case3 => cases hc

theorem hyphenToSpace_mem {c : Char} {l : List Char} (hc : c ∈ l) (hd : c ≠ '-') :
    c ∈ hyphenToSpace l := by
  have := List.mem_map_of_mem (fun x => if x = '-' then ' ' else x) hc
  simpa [hyphenToSpace, if_neg hd] using this

theorem processPara_mem {c : Char} {l : List Char} (hc : c ∈ l) (hd : c ≠ '-') :
    c ∈ processPara l :=
  hyphenToSpace_mem (dblHyphen_mem (dashSpace_mem hc) hd) hd

theorem splitWsAux_ne_nil {l acc : List Char}
    (h : (∃ c ∈ l, isWs c = false) ∨ acc ≠ []) : splitWsAux l acc ≠ [] := by
  induction l generalizing acc with
  | nil =>
    rcases h with ⟨c, hc, _⟩ | h
    · cases hc
    · simp [splitWsAux, List.isEmpty_iff, h]
  | cons a t ih =>
    rw [splitWsAux]
    split
    case isTrue hws =>
      split
      case isTrue hacc =>
        apply ih
        left
        rcases h with ⟨c, hc, hcw⟩ | h
        · rcases List.mem_cons.mp hc with h2 | h2
          · subst h2; rw [hws] at hcw; cases hcw
          · exact ⟨c, h2, hcw⟩
        · simp_all [List.isEmpty_iff]
      case isFalse => simp
    case isFalse hws =>
      apply ih; right; simp

theorem splitWs_ne_nil {l : List Char} {c : Char} (hc : c ∈ l) (hws : isWs c = false) :
    splitWs l ≠ [] :=
  splitWsAux_ne_nil (Or.inl ⟨c, hc, hws⟩)

/-! ### Lemmas about the ingestion loops -/

theorem get?_append_some {α : Type} {l l' : List α} {n : Nat} {a : α}
    (h : l.get? n = some a) : (l ++ l').get? n = some a := by
  have hn : n < l.length := by
    by_contra hn
    rw [List.get?_eq_none.mpr (le_of_not_lt hn)] at h
    cases h
  rw [List.get?_append hn]
  exact h

theorem get?_concat_cases {α : Type} {l : List α} {x a : α} {n : Nat}
    (h : (l ++ [x]).get? n = some a) :
    l.get? n = some a ∨ (n = l.length ∧ a = x) := by
  by_cases hn : n < l.length
  · left; rw [List.get?_append hn] at h; exact h
  · right
    rcases Nat.lt_or_ge n (l.length + 1) with h1 | h1
    · have hn2 : n = l.length := by omega
      subst hn2
      rw [List.get?_concat_length] at h
      exact ⟨rfl, (Option.some_inj.mp h).symm⟩
    · exfalso
      rw [List.get?_eq_none.mpr (by simp; omega)] at h
      cases h

theorem pushWordsLoop_items_le (m : Bool) (ws : List (List Char)) (a : ParseAcc) :
    a.items.length ≤ (pushWordsLoop m ws a).items.length := by
  induction ws generalizing a with
  | nil => simp [pushWordsLoop]
  | cons w rest ih =>
    rw [pushWordsLoop]
    refine le_trans ?_ (ih _)
    split <;> simp

theorem pushWordsLoop_items_pos (m : Bool) (w : List Char) (rest : List (List Char))
    (a : ParseAcc) : 0 < (pushWordsLoop m (w :: rest) a).items.length := by
  rw [pushWordsLoop]
  refine lt_of_lt_of_le ?_ (pushWordsLoop_items_le _ _ _)
  split <;> simp

theorem setTextLoop_items_le (paras : List (List Char)) (a : ParseAcc) :
    a.items.length ≤ (setTextLoop paras a).items.length := by
  induction paras generalizing a with
  | nil => simp [setTextLoop]
  | cons pf rest ih =>
    rw [setTextLoop]
    split
    · exact ih a
    · have h1 : a.items.length ≤
          (pushWordsLoop (decide (rest ≠ [])) (splitWs (processPara (jsTrim pf))) a).items.length :=
        pushWordsLoop_items_le _ _ _
      refine le_trans ?_ (ih _)
      split
      · dsimp only
        simp only [List.length_append, List.length_singleton]
        omega
      · exact h1

theorem setTextLoop_items_ne_nil {paras : List (List Char)} (a : ParseAcc)
    (h : ∃ pf ∈ paras, ∃ c ∈ jsTrim pf, isWs c = false ∧ c ≠ '-') :
    (setTextLoop paras a).items ≠ [] := by
  induction paras generalizing a with
  | nil => obtain ⟨pf, hpf, _⟩ := h; cases hpf
  | cons pf rest ih =>
    rw [setTextLoop]
    obtain ⟨pf0, hpf0, c, hc, hcw, hch⟩ := h
    rcases List.mem_cons.mp hpf0 with heq | hmem
    · subst heq
      have hpara : jsTrim pf0 ≠ [] := List.ne_nil_of_mem hc
      rw [if_neg hpara, ← List.length_pos]
      have hraw : splitWs (processPara (jsTrim pf0)) ≠ [] :=
        splitWs_ne_nil (processPara_mem hc hch) hcw
      obtain ⟨w, ws', hw⟩ := List.exists_cons_of_ne_nil hraw
      have h1 : 0 < (pushWordsLoop (decide (rest ≠ []))
          (splitWs (processPara (jsTrim pf0))) a).items.length := by
        rw [hw]; exact pushWordsLoop_items_pos _ _ _ _
      refine lt_of_lt_of_le ?_ (setTextLoop_items_le rest _)
      split
      · dsimp only
        simp only [List.length_append, List.length_singleton]
        omega
      · exact h1
    · split
      · exact ih a ⟨pf0, hmem, c, hc, hcw, hch⟩
      · exact ih _ ⟨pf0, hmem, c, hc, hcw, hch⟩

theorem pushWordsLoop_sound {m : Bool} {ws : List (List Char)} {a : ParseAcc}
    (h : SoundAcc a) : SoundAcc (pushWordsLoop m ws a) := by
  induction ws generalizing a with
  | nil => simpa [pushWordsLoop] using h
  | cons w rest ih =>
    rw [pushWordsLoop]
    apply ih
    obtain ⟨hwi, hst⟩ := h
    split
    case isTrue hcond =>
      refine ⟨by simp [hwi], ?_⟩
      intro x hx
      dsimp only at hx ⊢
      rcases List.mem_append.mp hx with hx | hx
      · rcases hst x hx with h0 | ⟨w', v', hg, hp, he⟩
        · exact Or.inl h0
        · exact Or.inr ⟨w', v', get?_append_some hg, hp, he⟩
      · rw [List.mem_singleton.mp hx]
        exact Or.inr ⟨a.words.length, String.mk w, List.get?_concat_length _ _, hcond.1,
          by simp [hwi]⟩
    case isFalse hcond =>
      refine ⟨by simp [hwi], ?_⟩
      intro x hx
      dsimp only at hx ⊢
      rcases hst x hx with h0 | ⟨w', v', hg, hp, he⟩
      · exact Or.inl h0
      · exact Or.inr ⟨w', v', get?_append_some hg, hp, he⟩

theorem setTextLoop_sound {paras : List (List Char)} {a : ParseAcc}
    (h : SoundAcc a) : SoundAcc (setTextLoop paras a) := by
  induction paras generalizing a with
  | nil => simpa [setTextLoop] using h
  | cons pf rest ih =>
    rw [setTextLoop]
    split
    · exact ih h
    · apply ih
      have h1 := @pushWordsLoop_sound (decide (rest ≠ []))
        (splitWs (processPara (jsTrim pf))) _ h
      split
      · exact ⟨h1.1, h1.2⟩
      · exact h1

theorem setContentLoop_sound {l : List Item} {i : Nat} {a : ParseAcc}
    (h : IffAcc a) : IffAcc (setContentLoop l i a) := by
  induction l generalizing i a with
  | nil => simpa [setContentLoop] using h
  | cons it rest ih =>
    obtain ⟨hwi, hst⟩ := h
    match it with
    | Item.word v =>
      rw [setContentLoop]
      apply ih
      split
      case isTrue hp =>
        refine ⟨by simp [hwi], ?_⟩
        intro x
        dsimp only
        constructor
        · intro hx
          rcases List.mem_append.mp hx with hx | hx
          · rcases (hst x).mp hx with h0 | ⟨w', v', hg, hpp, he⟩
            · exact Or.inl h0
            · exact Or.inr ⟨w', v', get?_append_some hg, hpp, he⟩
          · rw [List.mem_singleton.mp hx]
            exact Or.inr ⟨a.words.length, v, List.get?_concat_length _ _, hp, by simp [hwi]⟩
        · intro hx
          rcases hx with h0 | ⟨w', v', hg, hpp, he⟩
          · exact List.mem_append_left _ ((hst x).mpr (Or.inl h0))
          · rcases get?_concat_cases hg with hg2 | ⟨hn, hv⟩
            · exact List.mem_append_left _ ((hst x).mpr (Or.inr ⟨w', v', hg2, hpp, he⟩))
            · subst hn; subst he
              exact List.mem_append_right _ (by simp [hwi])
      case isFalse hp =>
        refine ⟨by simp [hwi], ?_⟩
        intro x
        dsimp only
        constructor
        · intro hx
          rcases (hst x).mp hx with h0 | ⟨w', v', hg, hpp, he⟩
          · exact Or.inl h0
          · exact Or.inr ⟨w', v', get?_append_some hg, hpp, he⟩
        · intro hx
          rcases hx with h0 | ⟨w', v', hg, hpp, he⟩
          · exact (hst x).mpr (Or.inl h0)
          · rcases get?_concat_cases hg with hg2 | ⟨hn, hv⟩
            · exact (hst x).mpr (Or.inr ⟨w', v', hg2, hpp, he⟩)
            · subst hv; exact absurd hpp (by simp [hp])
    | Item.pbreak =>
      rw [setContentLoop]
      apply ih
      split <;> exact ⟨hwi, hst⟩
    | Item.special c h2 =>
      rw [setContentLoop]
      exact ih ⟨hwi, hst⟩

theorem endsPunct_mk (w : List Char) : endsPunct (String.mk w) = endsPunctL w := rfl

theorem pushWordsLoop_complete_true {ws : List (List Char)} {a : ParseAcc}
    (h : CompleteAcc a) : CompleteAcc (pushWordsLoop true ws a) := by
  induction ws generalizing a with
  | nil => simpa [pushWordsLoop] using h
  | cons w rest ih =>
    rw [pushWordsLoop]
    apply ih
    obtain ⟨hwi, hcp⟩ := h
    split
    case isTrue hcond =>
      refine ⟨by simp [hwi], ?_⟩
      intro w' v' hg hp
      dsimp only at hg ⊢
      rcases get?_concat_cases hg with hg2 | ⟨hn, hv⟩
      · exact List.mem_append_left _ (hcp w' v' hg2 hp)
      · subst hn
        exact List.mem_append_right _ (by simp [hwi])
    case isFalse hcond =>
      refine ⟨by simp [hwi], ?_⟩
      intro w' v' hg hp
      dsimp only at hg ⊢
      rcases get?_concat_cases hg with hg2 | ⟨hn, hv⟩
      · exact hcp w' v' hg2 hp
      · subst hn; subst hv
        rw [endsPunct_mk] at hp
        exact absurd ⟨hp, Or.inr rfl⟩ hcond

theorem pushWordsLoop_complete_false {ws : List (List Char)} {a : ParseAcc}
    (h : CompleteAcc a) : CompleteAccW (pushWordsLoop false ws a) := by
  induction ws generalizing a with
  | nil =>
    rw [pushWordsLoop]
    exact ⟨h.1, fun w v hg hp => Or.inl (h.2 w v hg hp)⟩
  | cons w rest ih =>
    obtain ⟨hwi, hcp⟩ := h
    cases rest with
    | nil =>
      rw [pushWordsLoop, pushWordsLoop]
      rw [if_neg (by simp)]
      refine ⟨by simp [hwi], ?_⟩
      intro w' v' hg hp
      dsimp only at hg ⊢
      rcases get?_concat_cases hg with hg2 | ⟨hn, hv⟩
      · exact Or.inl (hcp w' v' hg2 hp)
      · subst hn
        exact Or.inr (by simp [hwi])
    | cons w2 rest2 =>
      rw [pushWordsLoop]
      apply ih
      split
      case isTrue hcond =>
        refine ⟨by simp [hwi], ?_⟩
        intro w' v' hg hp
        dsimp only at hg ⊢
        rcases get?_concat_cases hg with hg2 | ⟨hn, hv⟩
        · exact List.mem_append_left _ (hcp w' v' hg2 hp)
        · subst hn
          exact List.mem_append_right _ (by simp [hwi])
      case isFalse hcond =>
        refine ⟨by simp [hwi], ?_⟩
        intro w' v' hg hp
        dsimp only at hg ⊢
        rcases get?_concat_cases hg with hg2 | ⟨hn, hv⟩
        · exact hcp w' v' hg2 hp
        · subst hn; subst hv
          rw [endsPunct_mk] at hp
          exact absurd ⟨hp, Or.inl (by simp)⟩ hcond

theorem setTextLoop_complete {paras : List (List Char)} {a : ParseAcc}
    (h : CompleteAcc a) : CompleteAccW (setTextLoop paras a) := by
  induction paras generalizing a with
  | nil =>
    rw [setTextLoop]
    exact ⟨h.1, fun w v hg hp => Or.inl (h.2 w v hg hp)⟩
  | cons pf rest ih =>
    rw [setTextLoop]
    split
    · exact ih h
    · cases rest with
      | nil =>
        rw [setTextLoop]
        rw [if_neg (by simp)]
        have h1 := @pushWordsLoop_complete_false (splitWs (processPara (jsTrim pf))) _ h
        simpa using h1
      | cons p2 r2 =>
        apply ih
        have h1 := @pushWordsLoop_complete_true (splitWs (processPara (jsTrim pf))) _ h
        have h2 : CompleteAcc (pushWordsLoop (decide ((p2 :: r2) ≠ []))
            (splitWs (processPara (jsTrim pf))) a) := by
          simpa using h1
        split
        · exact ⟨h2.1, h2.2⟩
        · exact h2

theorem pushWordsLoop_starts_ext (m : Bool) (ws : List (List Char)) (a : ParseAcc) :
    ∃ l, (pushWordsLoop m ws a).sentenceStarts = a.sentenceStarts ++ l := by
  induction ws generalizing a with
  | nil => exact ⟨[], by simp [pushWordsLoop]⟩
  | cons w rest ih =>
    rw [pushWordsLoop]
    split
    · obtain ⟨l, hl⟩ := ih _
      refine ⟨[a.wordIndex + 1] ++ l, ?_⟩
      rw [hl]
      dsimp only
      rw [List.append_assoc]
    · obtain ⟨l, hl⟩ := ih _
      exact ⟨l, by rw [hl]⟩

theorem setTextLoop_starts_ext (paras : List (List Char)) (a : ParseAcc) :
    ∃ l, (setTextLoop paras a).sentenceStarts = a.sentenceStarts ++ l := by
  induction paras generalizing a with
  | nil => exact ⟨[], by simp [setTextLoop]⟩
  | cons pf rest ih =>
    rw [setTextLoop]
    split
    · exact ih a
    · obtain ⟨l1, hl1⟩ :=
        pushWordsLoop_starts_ext (decide (rest ≠ [])) (splitWs (processPara (jsTrim pf))) a
      obtain ⟨l2, hl2⟩ := ih (a :=
        if rest ≠ [] ∧ 0 < (pushWordsLoop (decide (rest ≠ []))
            (splitWs (processPara (jsTrim pf))) a).words.length then
          { pushWordsLoop (decide (rest ≠ [])) (splitWs (processPara (jsTrim pf))) a with
            paragraphEnds := (pushWordsLoop (decide (rest ≠ []))
              (splitWs (processPara (jsTrim pf))) a).paragraphEnds ++
              [(pushWordsLoop (decide (rest ≠ [])) (splitWs (processPara (jsTrim pf))) a).items.length - 1]
          , items := (pushWordsLoop (decide (rest ≠ []))
              (splitWs (processPara (jsTrim pf))) a).items ++ [Item.pbreak] }
        else pushWordsLoop (decide (rest ≠ [])) (splitWs (processPara (jsTrim pf))) a)
      refine ⟨l1 ++ l2, ?_⟩
      rw [hl2]
      have : (if rest ≠ [] ∧ 0 < (pushWordsLoop (decide (rest ≠ []))
            (splitWs (processPara (jsTrim pf))) a).words.length then
          { pushWordsLoop (decide (rest ≠ [])) (splitWs (processPara (jsTrim pf))) a with
            paragraphEnds := (pushWordsLoop (decide (rest ≠ []))
              (splitWs (processPara (jsTrim pf))) a).paragraphEnds ++
              [(pushWordsLoop (decide (rest ≠ [])) (splitWs (processPara (jsTrim pf))) a).items.length - 1]
          , items := (pushWordsLoop (decide (rest ≠ []))
              (splitWs (processPara (jsTrim pf))) a).items ++ [Item.pbreak] }
        else pushWordsLoop (decide (rest ≠ [])) (splitWs (processPara (jsTrim pf))) a).sentenceStarts
        = a.sentenceStarts ++ l1 := by
        split <;> exact hl1
      rw [this, List.append_assoc]

theorem setContentLoop_starts_ext (l : List Item) (i : Nat) (a : ParseAcc) :
    ∃ t, (setContentLoop l i a).sentenceStarts = a.sentenceStarts ++ t := by
  induction l generalizing i a with
  | nil => exact ⟨[], by simp [setContentLoop]⟩
  | cons it rest ih =>
    match it with
    | Item.word v =>
      rw [setContentLoop]
      split
      · obtain ⟨t, ht⟩ := ih _ _
        refine ⟨[a.wordIndex + 1] ++ t, ?_⟩
        rw [ht]
        dsimp only
        rw [List.append_assoc]
      · obtain ⟨t, ht⟩ := ih _ _
        exact ⟨t, by rw [ht]⟩
    | Item.pbreak =>
      rw [setContentLoop]
      obtain ⟨t, ht⟩ := ih (i + 1) (a :=
        if 0 < i then { a with paragraphEnds := a.paragraphEnds ++ [i - 1] } else a)
      refine ⟨t, ?_⟩
      rw [ht]
      congr 1
      split <;> rfl
    | Item.special c h2 =>
      rw [setContentLoop]
      exact ih _ _

/-! ### Claims C2 and C3 -/

/-- Claim C2, counterexample: setText on the empty string (which trims to
empty) leaves an empty item sequence, and so does setContent on the empty
list, contradicting the claim that every input yields a non-empty sequence. -/
theorem c2_counterexample :
    (setText "" blankState).items = [] ∧ (setContent [] blankState).items = [] :=
  ⟨rfl, rfl⟩

/-- Claim C2 (amended): setText and setContent are total (modeled as total
functions, they cannot raise) and reset the position to 0; setText leaves a
non-empty sequence whenever the input contains a non-whitespace character
other than a plain hyphen, and setContent stores exactly the given item list,
which is non-empty exactly when the list is. -/
theorem c2_set_text_set_content (t : String) (l : List Item) (s s' : State)
    (h : ∃ c ∈ t.toList, isWs c = false ∧ c ≠ '-') :
    (setText t s).items ≠ [] ∧ (setText t s).currentIndex = 0 ∧
    (setContent l s').items = l ∧ (setContent l s').currentIndex = 0 := by
  refine ⟨?_, rfl, rfl, rfl⟩
  obtain ⟨c, hc, hw, hh⟩ := h
  show (setTextLoop (splitParas (jsTrim t.toList)) emptyAcc).items ≠ []
  apply setTextLoop_items_ne_nil
  obtain ⟨fr, hfr, hcf⟩ := splitParas_mem (mem_jsTrim hc hw) hw
  exact ⟨fr, hfr, c, mem_jsTrim hcf hw, hw, hh⟩

theorem c2_set_text_set_content_witness :
    (setText "hi" blankState).items ≠ [] ∧ (setText "hi" blankState).currentIndex = 0 ∧
    (setContent [Item.word "x"] blankState).items = [Item.word "x"] ∧
    (setContent [Item.word "x"] blankState).currentIndex = 0 :=
  c2_set_text_set_content "hi" [Item.word "x"] blankState blankState (by decide)

/-- Claim C3, counterexample: setContent records a sentence start after a
final punctuation-ending word (here start 1 for the single word, which is the
final word), and setText does the same when a later paragraph contributes no
words (a dash-only paragraph), contradicting the final-word exclusion. -/
theorem c3_counterexample :
    (setContent [Item.word "a."] blankState).sentenceStarts = [0, 1] ∧
    (setContent [Item.word "a."] blankState).words = ["a."] ∧
    (setText "a.\n\n-" blankState).sentenceStarts = [0, 1] ∧
    (setText "a.\n\n-" blankState).words = ["a."] :=
  ⟨rfl, rfl, rfl, rfl⟩

/-- Claim C3 (amended): for both setText and setContent the sentence start
list begins with 0 and every other entry is w+1 for a word w ending in one of
the three sentence punctuation marks.  For setText, every punctuation-ending
word other than the final one is recorded (the final word may also be
recorded, when a later paragraph yields no words).  For setContent the
final-word exclusion is absent: w+1 is recorded exactly when word w ends in
punctuation, even for the final word. -/
theorem c3_sentence_starts (t : String) (l : List Item) (s s' : State) :
    (setText t s).sentenceStarts.head? = some 0 ∧
    (∀ x ∈ (setText t s).sentenceStarts, x = 0 ∨
      ∃ w v, (setText t s).words.get? w = some v ∧ endsPunct v = true ∧ x = w + 1) ∧
    (∀ w v, (setText t s).words.get? w = some v → endsPunct v = true →
      w + 1 < (setText t s).words.length → w + 1 ∈ (setText t s).sentenceStarts) ∧
    (setContent l s').sentenceStarts.head? = some 0 ∧
    (∀ x, x ∈ (setContent l s').sentenceStarts ↔ (x = 0 ∨
      ∃ w v, (setContent l s').words.get? w = some v ∧ endsPunct v = true ∧ x = w + 1)) := by
  have hsound := @setTextLoop_sound (splitParas (jsTrim t.toList)) emptyAcc
    ⟨rfl, by intro x hx; exact Or.inl (List.mem_singleton.mp hx)⟩
  have hcomp := @setTextLoop_complete (splitParas (jsTrim t.toList)) emptyAcc
    ⟨rfl, by intro w v hg _; simp [emptyAcc] at hg⟩
  have hiff := setContentLoop_sound (l := l) (i := 0) (a := emptyAcc)
    ⟨rfl, by
      intro x
      constructor
      · intro hx
        exact Or.inl (List.mem_singleton.mp hx)
      · rintro (rfl | ⟨w, v, hg, _, _⟩)
        · exact List.mem_singleton.mpr rfl
        · simp [emptyAcc] at hg⟩
  refine ⟨?_, ?_, ?_, ?_, ?_⟩
  · show (setTextLoop (splitParas (jsTrim t.toList)) emptyAcc).sentenceStarts.head? = some 0
    obtain ⟨l2, hl⟩ := setTextLoop_starts_ext (splitParas (jsTrim t.toList)) emptyAcc
    rw [hl]
    rfl
  · exact fun x hx => hsound.2 x hx
  · intro w v hg hp hlt
    rcases hcomp.2 w v hg hp with h | h
    · exact h
    · exact absurd hlt (by
        have : (setText t s).words.length =
            (setTextLoop (splitParas (jsTrim t.toList)) emptyAcc).words.length := rfl
        omega)
  · show (setContentLoop l 0 emptyAcc).sentenceStarts.head? = some 0
    obtain ⟨t2, ht⟩ := setContentLoop_starts_ext l 0 emptyAcc
    rw [ht]
    rfl
  · exact fun x => hiff.2 x

theorem c3_sentence_starts_witness :
    1 ∈ (setText "a. b" blankState).sentenceStarts ∧
    (1 ∈ (setContent [Item.word "x!", Item.word "y"] blankState).sentenceStarts) :=
  ⟨(c3_sentence_starts "a. b" [] blankState blankState).2.2.1 0 "a." rfl rfl (by decide),
   (c3_sentence_starts "" [Item.word "x!", Item.word "y"] blankState blankState).2.2.2.2 1
     |>.mpr (Or.inr ⟨0, "x!", rfl, rfl, rfl⟩)⟩

/-! ### Claims C4 to C7 -/

/-- Claim C4, counterexample: at wpm 250 the third and fourth ease-in
intervals are 2400/7 and 4800/17 milliseconds, not the 343 and 282 stated by
the claim (those are roundings). -/
theorem c4_counterexample :
    getInterval { blankState with wpm := 250, easeInCount := 2 } = 2400 / 7 ∧
    (2400 / 7 : ℚ) ≠ 343 ∧
    getInterval { blankState with wpm := 250, easeInCount := 3 } = 4800 / 17 ∧
    (4800 / 17 : ℚ) ≠ 282 := by
  refine ⟨?_, by norm_num, ?_, by norm_num⟩ <;> norm_num [getInterval, easeFactors, blankState]

/-- Claim C4 (amended): for wpm in [100, 1000], getInterval returns the base
interval 60000 / wpm divided by the easing factor indexed by easeInCount when
easeInCount is below five, and the base interval otherwise; at wpm 250 the
five ease-in intervals are 480, 400, 2400/7 (about 342.86), 4800/17 (about
282.35) and 240 milliseconds, and every later interval is 240 ms. -/
theorem c4_interval (s : State) (h1 : 100 ≤ s.wpm) (h2 : s.wpm ≤ 1000) :
    getInterval s = (if s.easeInCount < 5
      then (60000 / s.wpm) / easeFactors.getD s.easeInCount 1
      else 60000 / s.wpm) ∧
    (s.wpm = 250 →
      (s.easeInCount = 0 → getInterval s = 480) ∧
      (s.easeInCount = 1 → getInterval s = 400) ∧
      (s.easeInCount = 2 → getInterval s = 2400 / 7) ∧
      (s.easeInCount = 3 → getInterval s = 4800 / 17) ∧
      (4 ≤ s.easeInCount → getInterval s = 240)) := by
  refine ⟨rfl, fun hw => ⟨?_, ?_, ?_, ?_, ?_⟩⟩ <;> intro he
  · norm_num [getInterval, hw, he, easeFactors]
  · norm_num [getInterval, hw, he, easeFactors]
  · norm_num [getInterval, hw, he, easeFactors]
  · norm_num [getInterval, hw, he, easeFactors]
  · rcases Nat.lt_or_ge s.easeInCount 5 with h5 | h5
    · have he4 : s.easeInCount = 4 := by omega
      norm_num [getInterval, hw, he4, easeFactors]
    · norm_num [getInterval, hw, Nat.not_lt.mpr h5]

theorem c4_interval_witness :
    getInterval { blankState with wpm := 250, easeInCount := 1 } = 400 :=
  ((c4_interval { blankState with wpm := 250, easeInCount := 1 }
    (by norm_num) (by norm_num)).2 rfl).2.1 rfl

/-- Claim C5: calculateORP lies in [0, min 4 (L-1)], follows the step function
with breakpoints at lengths 1, 5, 9, 13, is monotone in the length, and is a
valid zero-based offset into the word (0 for empty words). -/
theorem c5_orp (w : String) :
    calculateORP w ≤ min 4 (w.length - 1) ∧
    calculateORP w = (if w.length ≤ 1 then 0 else if w.length ≤ 5 then 1
      else if w.length ≤ 9 then 2 else if w.length ≤ 13 then 3 else 4) ∧
    (∀ w' : String, w.length ≤ w'.length → calculateORP w ≤ calculateORP w') ∧
    (w.length = 0 → calculateORP w = 0) ∧
    (0 < w.length → calculateORP w < w.length) := by
  refine ⟨?_, rfl, ?_, ?_, ?_⟩
  · rw [Nat.le_min]
    unfold calculateORP
    dsimp only
    constructor <;> (split_ifs <;> omega)
  · intro w' h
    unfold calculateORP
    dsimp only
    split_ifs <;> omega
  · intro h
    unfold calculateORP
    dsimp only
    split_ifs <;> omega
  · intro h
    unfold calculateORP
    dsimp only
    split_ifs <;> omega

theorem c5_orp_witness :
    calculateORP "reading" < "reading".length ∧
    calculateORP "ab" ≤ calculateORP "abcdef" :=
  ⟨(c5_orp "reading").2.2.2.2 (by decide), (c5_orp "ab").2.2.1 "abcdef" (by decide)⟩

/-- Claim C6: jumpToIndex sets the index, resets the ease-in counter and
notifies word change and progress when the index is in range; out-of-range
indices (negative, or at least the length) leave the whole state unchanged,
with no notification and no failure. -/
theorem c6_jump_to_index (s : State) (i : Int) :
    (0 ≤ i ∧ i < (s.items.length : Int) →
      jumpToIndex i s = { s with currentIndex := i.toNat, easeInCount := 0
                               , events := s.events ++ [Event.wordChange, Event.progress] }) ∧
    (¬(0 ≤ i ∧ i < (s.items.length : Int)) → jumpToIndex i s = s) := by
  constructor
  · intro h
    rw [jumpToIndex, if_pos h]
  · intro h
    rw [jumpToIndex, if_neg h]

theorem c6_jump_to_index_witness :
    jumpToIndex (-3) blankState = blankState ∧ jumpToIndex 0 blankState = blankState :=
  ⟨(c6_jump_to_index blankState (-3)).2 (by decide),
   (c6_jump_to_index blankState 0).2 (by decide)⟩

/-- Claim C7: a single hyphen is replaced by a space so hyphenated compounds
split into separate words; an em dash is retained, attached to the preceding
fragment, with a word boundary after it; a double hyphen is first rewritten
to an em dash and then treated the same way. -/
theorem c7_tokenization :
    (setText "self-driving cars" blankState).items =
      [Item.word "self", Item.word "driving", Item.word "cars"] ∧
    (setText "loops—catching errors" blankState).items =
      [Item.word "loops—", Item.word "catching", Item.word "errors"] ∧
    (setText "loops--catching errors" blankState).items =
      (setText "loops—catching errors" blankState).items :=
  ⟨rfl, rfl, rfl⟩

/-! ### Claim C10 -/

theorem drop_append_self {α : Type} (a b : List α) : (a ++ b).drop a.length = b := by
  induction a with
  | nil => rfl
  | cons x xs ih => exact ih

theorem prevSentenceCore_events_ext (now : Int) (s : State) :
    ∃ l, (prevSentenceCore now s).events = s.events ++ l := by
  rw [prevSentenceCore]
  repeat' split
  all_goals exact ⟨_, by simp [List.append_assoc, apply_ite State.events]; try rfl⟩

theorem nextSentenceCore_events_ext (s : State) :
    ∃ l, (nextSentenceCore s).events = s.events ++ l := by
  rw [nextSentenceCore]
  repeat' split
  all_goals exact ⟨_, by simp [List.append_assoc, apply_ite State.events]; try rfl⟩

theorem prevWordCore_events_ext (s : State) :
    ∃ l, (prevWordCore s).events = s.events ++ l := by
  rw [prevWordCore]
  repeat' split
  all_goals exact ⟨_, by simp [List.append_assoc, apply_ite State.events]; try rfl⟩

theorem nextWordCore_events_ext (s : State) :
    ∃ l, (nextWordCore s).events = s.events ++ l := by
  rw [nextWordCore]
  repeat' split
  all_goals exact ⟨_, by simp [List.append_assoc, apply_ite State.events]; try rfl⟩

/-- Claim C10: every call to stop, previousSentence, nextSentence,
previousWord and nextWord fires the special-content-end callback, even when no
special content is currently shown, because each routes through
clearSpecialContent, which fires the callback unconditionally.  The membership
is in the events appended by the call. -/
theorem c10_special_end_unconditional (s : State) (now : Int) :
    Event.specialEnd ∈ ((stop s).events.drop s.events.length) ∧
    Event.specialEnd ∈ ((previousSentence now s).events.drop s.events.length) ∧
    Event.specialEnd ∈ ((nextSentence s).events.drop s.events.length) ∧
    Event.specialEnd ∈ ((previousWord s).events.drop s.events.length) ∧
    Event.specialEnd ∈ ((nextWord s).events.drop s.events.length) := by
  refine ⟨?_, ?_, ?_, ?_, ?_⟩
  · obtain ⟨l0, hl0⟩ := pause_events_ext s
    have h : (stop s).events =
        s.events ++ (l0 ++ Event.specialEnd :: [Event.wordChange, Event.progress]) := by
      show (clearSpecialContent (pause s)).events ++ [Event.wordChange, Event.progress] = _
      rw [clearSpecialContent_events, hl0]
      simp
    rw [h, drop_append_self]
    simp
  · obtain ⟨l, hl⟩ := prevSentenceCore_events_ext now (clearSpecialContent s)
    have h : (previousSentence now s).events = s.events ++ (Event.specialEnd :: l) := by
      show (prevSentenceCore now (clearSpecialContent s)).events = _
      rw [hl, clearSpecialContent_events]
      simp
    rw [h, drop_append_self]
    exact List.mem_cons_self _ _
  · obtain ⟨l, hl⟩ := nextSentenceCore_events_ext (clearSpecialContent s)
    have h : (nextSentence s).events = s.events ++ (Event.specialEnd :: l) := by
      show (nextSentenceCore (clearSpecialContent s)).events = _
      rw [hl, clearSpecialContent_events]
      simp
    rw [h, drop_append_self]
    exact List.mem_cons_self _ _
  · obtain ⟨l, hl⟩ := prevWordCore_events_ext (clearSpecialContent s)
    have h : (previousWord s).events = s.events ++ (Event.specialEnd :: l) := by
      show (prevWordCore (clearSpecialContent s)).events = _
      rw [hl, clearSpecialContent_events]
      simp
    rw [h, drop_append_self]
    exact List.mem_cons_self _ _
  · obtain ⟨l, hl⟩ := nextWordCore_events_ext (clearSpecialContent s)
    have h : (nextWord s).events = s.events ++ (Event.specialEnd :: l) := by
      show (nextWordCore (clearSpecialContent s)).events = _
      rw [hl, clearSpecialContent_events]
      simp
    rw [h, drop_append_self]
    exact List.mem_cons_self _ _

/-! ### Claim C1: index bounds -/

@[simp] theorem skipBreaks_items (s : State) : (skipBreaks s).items = s.items := rfl

theorem skipBreaksBack_le (items : List Item) (n : Nat) : skipBreaksBack items n ≤ n := by
  induction n with
  | zero => simp [skipBreaksBack]
  | succ j ih =>
    rw [skipBreaksBack]
    split
    · exact le_trans ih (Nat.le_succ j)
    · exact le_refl _

theorem itemIdxOfWordAux_lt {items : List Item} {t i wc j : Nat}
    (h : itemIdxOfWordAux items t i wc = some j) : j < i + items.length := by
  induction items generalizing i wc with
  | nil => simp [itemIdxOfWordAux] at h
  | cons it rest ih =>
    rw [itemIdxOfWordAux] at h
    split at h
    · split at h
      · cases h
        simp
      · have := ih h
        simp only [List.length_cons]
        omega
    · have := ih h
      simp only [List.length_cons]
      omega

theorem findSpecialDownAux_le {items : List Item} {lo hi i j : Nat} {acc : Option Nat}
    (hacc : ∀ a, acc = some a → a ≤ hi)
    (h : findSpecialDownAux items lo hi i acc = some j) : j ≤ hi := by
  induction items generalizing i acc with
  | nil =>
    rw [findSpecialDownAux] at h
    exact hacc j h
  | cons it rest ih =>
    rw [findSpecialDownAux] at h
    refine ih ?_ h
    intro a ha
    split at ha
    case isTrue hcond =>
      cases ha
      exact hcond.2.1
    case isFalse => exact hacc a ha

theorem findSpecialUpAux_le {items : List Item} {lo hi i j : Nat}
    (h : findSpecialUpAux items lo hi i = some j) : j ≤ hi := by
  induction items generalizing i with
  | nil => simp [findSpecialUpAux] at h
  | cons it rest ih =>
    rw [findSpecialUpAux] at h
    split at h
    case isTrue hcond =>
      cases h
      exact hcond.2.1
    case isFalse => exact ih h

theorem advProc_bounds (fuel : Nat) :
    (∀ s : State, s.currentIndex < s.items.length →
      (advanceToNextF fuel s).items = s.items ∧
      (advanceToNextF fuel s).currentIndex ≤ s.items.length) ∧
    (∀ s : State, s.currentIndex < s.items.length →
      (processCurrentItemF fuel s).items = s.items ∧
      (processCurrentItemF fuel s).currentIndex ≤ s.items.length) := by
  induction fuel with
  | zero =>
    constructor <;> intro s h
    · rw [advanceToNextF]
      exact ⟨rfl, le_of_lt h⟩
    · rw [processCurrentItemF]
      exact ⟨rfl, le_of_lt h⟩
  | succ n ih =>
    constructor
    · intro s h
      rw [advanceToNextF]
      set s1 : State := skipBreaks { s with currentIndex := s.currentIndex + 1 } with hs1
      have hitems : s1.items = s.items := rfl
      have hle : s1.currentIndex ≤ s.items.length := by
        rw [hs1]
        show s.currentIndex + 1 +
          ((s.items.drop (s.currentIndex + 1)).takeWhile isBreak).length ≤ s.items.length
        have h1 : ((s.items.drop (s.currentIndex + 1)).takeWhile isBreak).length ≤
            (s.items.drop (s.currentIndex + 1)).length :=
          (List.takeWhile_prefix isBreak).length_le
        rw [List.length_drop] at h1
        omega
      split
      case isTrue hc =>
        have hlt : s1.currentIndex < s1.items.length := hc
        obtain ⟨hi2, hb2⟩ := ih.2 s1 hlt
        refine ⟨by rw [hi2, hitems], ?_⟩
        rw [hitems] at hb2
        exact hb2
      case isFalse hc =>
        refine ⟨by rw [pause_items, hitems], ?_⟩
        rw [pause_currentIndex]
        exact hle
    · intro s h
      rw [processCurrentItemF]
      split
      · exact ⟨pause_items _, by rw [pause_currentIndex]; exact le_of_lt h⟩
      · exact ⟨rfl, le_of_lt h⟩
      · exact ⟨by simp, by simp; omega⟩
      · exact ih.1 s h

theorem advanceToNextTop_bounds (s : State) (h : s.currentIndex < s.items.length) :
    (advanceToNextTop s).items = s.items ∧
    (advanceToNextTop s).currentIndex ≤ s.items.length :=
  (advProc_bounds (s.items.length + 2)).1 s h

theorem endSpecialContent_bounds (s : State) (h : s.currentIndex < s.items.length) :
    (endSpecialContent s).currentIndex ≤ s.items.length := by
  rw [endSpecialContent]
  refine (advanceToNextTop_bounds _ ?_).2
  exact h

theorem processCurrentItemF_not_break (fuel : Nat) (s : State)
    (hnb : (s.items.get? s.currentIndex).any isBreak = false) :
    (processCurrentItemF (fuel + 1) s).currentIndex = s.currentIndex := by
  rw [processCurrentItemF]
  split
  · exact pause_currentIndex _
  · rfl
  · simp
  case h_4 heq =>
    rw [heq] at hnb
    simp [isBreak] at hnb

theorem play_le (s : State) (h : s.currentIndex < s.items.length) :
    (play s).currentIndex ≤ s.items.length := by
  rw [play]
  dsimp only
  split
  · exact le_of_lt h
  · split
    · refine (advanceToNextTop_bounds _ ?_).2
      exact h
    · split
      case h_1 =>
        simp only [showSpecialContent_currentIndex]
        simp [apply_ite State.currentIndex]
        split <;> omega
      case h_2 =>
        simp only [scheduleNext_currentIndex]
        simp [apply_ite State.currentIndex]
        split <;> omega

theorem play_lt (s : State) (hne : s.items ≠ []) (h : s.currentIndex < s.items.length)
    (hsp : s.specialPaused = false) :
    (play s).currentIndex < s.items.length := by
  have hpos : 0 < s.items.length := List.length_pos.mpr hne
  rw [play]
  dsimp only
  split
  · exact h
  · rw [if_neg (by rw [hsp]; exact Bool.false_ne_true)]
    split
    case h_1 =>
      simp only [showSpecialContent_currentIndex]
      simp [apply_ite State.currentIndex]
      split <;> omega
    case h_2 =>
      simp only [scheduleNext_currentIndex]
      simp [apply_ite State.currentIndex]
      split <;> omega

theorem advance_lt (s : State) (hne : s.items ≠ []) (h : s.currentIndex < s.items.length) :
    (advance s).currentIndex < s.items.length := by
  rw [advance]
  split
  case isTrue hc =>
    dsimp only
    split
    case isTrue hb => simpa using hc
    case isFalse hb =>
      have hh : (processCurrentItemF
          (({ s with currentIndex := s.currentIndex + 1 } : State).items.length + 2)
          { s with currentIndex := s.currentIndex + 1 }).currentIndex
          = ({ s with currentIndex := s.currentIndex + 1 } : State).currentIndex :=
        processCurrentItemF_not_break
          (({ s with currentIndex := s.currentIndex + 1 } : State).items.length + 1)
          { s with currentIndex := s.currentIndex + 1 } (by simpa using hb)
      rw [hh]
      exact hc
  case isFalse hc =>
    rw [pause_currentIndex]
    exact h

theorem prevSentenceCore_lt (now : Int) (s : State) (hne : s.items ≠ [])
    (h : s.currentIndex < s.items.length) :
    (prevSentenceCore now s).currentIndex < s.items.length := by
  have hpos : 0 < s.items.length := List.length_pos.mpr hne
  rw [prevSentenceCore]
  split
  case h_1 i heq =>
    have hi : i < s.items.length := by
      revert heq
      cases hc : s.currentIndex with
      | zero => intro heq; cases heq
      | succ k =>
        intro heq
        have hk := findSpecialDownAux_le (fun a ha => by cases ha) heq
        rw [hc] at h
        omega
    simpa [apply_ite State.currentIndex] using hi
  case h_2 heq =>
    have htgt : ∀ t : Nat, (itemIdxOfWordAux s.items t 0 0).getD 0 < s.items.length := by
      intro t
      cases hf : itemIdxOfWordAux s.items t 0 0 with
      | none => simpa using hpos
      | some j =>
        have := itemIdxOfWordAux_lt hf
        simpa using this
    simp [apply_ite State.currentIndex]
    repeat' split
    all_goals exact htgt _

theorem nextSentenceCore_lt (s : State) (hne : s.items ≠ []) :
    (nextSentenceCore s).currentIndex < s.items.length := by
  have hpos : 0 < s.items.length := List.length_pos.mpr hne
  rw [nextSentenceCore]
  split
  case h_1 i heq =>
    have hi : i ≤ ((itemIdxOfWordAux s.items (firstGt s.sentenceStarts
        (countWordsBefore s.items s.currentIndex)) 0 0).getD s.currentIndex) ⊓
        (s.items.length - 1) := findSpecialUpAux_le heq
    have hlt : i < s.items.length := by
      have h2 := Nat.min_le_right ((itemIdxOfWordAux s.items (firstGt s.sentenceStarts
        (countWordsBefore s.items s.currentIndex)) 0 0).getD s.currentIndex)
        (s.items.length - 1)
      omega
    simpa [apply_ite State.currentIndex] using hlt
  case h_2 heq =>
    simp [apply_ite State.currentIndex]
    exact Or.inr hpos

theorem prevWordCore_lt (s : State) (h : s.currentIndex < s.items.length) :
    (prevWordCore s).currentIndex < s.items.length := by
  rw [prevWordCore]
  split
  case isTrue hc =>
    have := skipBreaksBack_le s.items (s.currentIndex - 1)
    simp only []
    omega
  case isFalse => exact h

theorem nextWordCore_lt (s : State) (hne : s.items ≠ [])
    (h : s.currentIndex < s.items.length) :
    (nextWordCore s).currentIndex < s.items.length := by
  have hpos : 0 < s.items.length := List.length_pos.mpr hne
  rw [nextWordCore]
  split
  case isTrue hc =>
    have := Nat.min_le_right (s.currentIndex + 1 +
      ((s.items.drop (s.currentIndex + 1)).takeWhile isBreak).length) (s.items.length - 1)
    simp only []
    omega
  case isFalse => exact h

/-- Claim C1, counterexample: with the two-item sequence [word, special] and
the special item current, endSpecialContent walks past the end of the
sequence and leaves currentIndex equal to the length, violating the claimed
strict upper bound for a non-empty sequence. -/
theorem c1_counterexample :
    ¬((endSpecialContent { blankState with
        items := [Item.word "a", Item.special "code" "x"], currentIndex := 1,
        isPlaying := true, countdownActive := true, isShowingSpecialContent := true,
        specialCountdown := 5 }).currentIndex <
      ({ blankState with
        items := [Item.word "a", Item.special "code" "x"], currentIndex := 1,
        isPlaying := true, countdownActive := true, isShowingSpecialContent := true,
        specialCountdown := 5 } : State).items.length) ∧
    ({ blankState with
        items := [Item.word "a", Item.special "code" "x"], currentIndex := 1,
        isPlaying := true, countdownActive := true, isShowingSpecialContent := true,
        specialCountdown := 5 } : State).items ≠ [] := by
  exact ⟨by decide, by decide⟩

/-- Claim C1 (amended): for a non-empty sequence with a valid current index,
every engine operation leaves currentIndex at most the sequence length, and
all of them except the advancing operations (advance past the end via
advanceToNext, endSpecialContent, and play resuming from a paused special)
preserve the strict bound currentIndex < length; the advancing operations can
leave currentIndex equal to the length when no item follows. -/
theorem c1_index_bounds (s : State) (i : Int) (now : Int)
    (hne : s.items ≠ []) (hlt : s.currentIndex < s.items.length) :
    (play s).currentIndex ≤ s.items.length ∧
    (s.specialPaused = false → (play s).currentIndex < s.items.length) ∧
    (pause s).currentIndex < s.items.length ∧
    (stop s).currentIndex < s.items.length ∧
    (advance s).currentIndex < s.items.length ∧
    (advanceToNextTop s).currentIndex ≤ s.items.length ∧
    (endSpecialContent s).currentIndex ≤ s.items.length ∧
    (jumpToIndex i s).currentIndex < s.items.length ∧
    (previousSentence now s).currentIndex < s.items.length ∧
    (nextSentence s).currentIndex < s.items.length ∧
    (previousWord s).currentIndex < s.items.length ∧
    (nextWord s).currentIndex < s.items.length := by
  have hpos : 0 < s.items.length := List.length_pos.mpr hne
  refine ⟨play_le s hlt, fun hsp => play_lt s hne hlt hsp, ?_, ?_, advance_lt s hne hlt,
    (advanceToNextTop_bounds s hlt).2, endSpecialContent_bounds s hlt, ?_, ?_, ?_, ?_, ?_⟩
  · rw [pause_currentIndex]; exact hlt
  · show (0 : Nat) < s.items.length
    exact hpos
  · rw [jumpToIndex]
    split
    case isTrue hc =>
      show Int.toNat i < s.items.length
      omega
    case isFalse hc => exact hlt
  · exact prevSentenceCore_lt now (clearSpecialContent s) hne hlt
  · exact nextSentenceCore_lt (clearSpecialContent s) hne
  · exact prevWordCore_lt (clearSpecialContent s) hlt
  · exact nextWordCore_lt (clearSpecialContent s) hne hlt

theorem c1_index_bounds_witness :
    (pause { blankState with items := [Item.word "a"] }).currentIndex <
      ({ blankState with items := [Item.word "a"] } : State).items.length ∧
    (endSpecialContent { blankState with items := [Item.word "a"] }).currentIndex ≤
      ({ blankState with items := [Item.word "a"] } : State).items.length :=
  ⟨(c1_index_bounds { blankState with items := [Item.word "a"] } 0 0
      (by decide) (by decide)).2.2.1,
   (c1_index_bounds { blankState with items := [Item.word "a"] } 0 0
      (by decide) (by decide)).2.2.2.2.2.2.1⟩


/-! ### Claim C8 -/

theorem advanceToNextF_to_word (n : Nat) (s : State) (v : String)
    (hv : s.items.get? (s.currentIndex + 1 +
      ((s.items.drop (s.currentIndex + 1)).takeWhile isBreak).length) = some (Item.word v)) :
    advanceToNextF (n + 1 + 1) s = scheduleNext { s with
        currentIndex := s.currentIndex + 1 +
          ((s.items.drop (s.currentIndex + 1)).takeWhile isBreak).length,
        easeInCount := s.easeInCount + 1,
        events := s.events ++ [Event.wordChange, Event.progress] } := by
  have hj : s.currentIndex + 1 +
      ((s.items.drop (s.currentIndex + 1)).takeWhile isBreak).length < s.items.length := by
    by_contra hc
    rw [List.get?_eq_none.mpr (le_of_not_lt hc)] at hv
    cases hv
  rw [advanceToNextF]
  simp only [skipBreaks]
  rw [if_pos hj]
  rw [processCurrentItemF]
  rw [hv]


/-- Claim C8 (amended): while a special-content countdown is running, pause
stops the countdown interval without hiding the content, emitting the hidden
sentinel on the countdown-tick channel; a subsequent play ends the special
display immediately without re-running the countdown (here the next navigable
item is a word, so no countdown is active afterwards) and advances to that
item, skipping any paragraph break silently: no paragraph-break signal and no
500 ms pause is produced, the event trace gains exactly the end-of-special,
state-change, word-change and progress notifications.  Since the countdown
starts at five, ticks once per second and is never restarted for the item,
its total running time never exceeds five seconds. -/
theorem c8_pause_resume (s : State) (v : String)
    (hplay : s.isPlaying = true) (hcd : s.countdownActive = true)
    (hshow : s.isShowingSpecialContent = true)
    (hword : s.items.get? (s.currentIndex + 1 +
      ((s.items.drop (s.currentIndex + 1)).takeWhile isBreak).length) = some (Item.word v)) :
    (pause s).countdownActive = false ∧
    (pause s).isShowingSpecialContent = true ∧
    (pause s).specialPaused = true ∧
    (pause s).events = s.events ++ [Event.countdownTick none, Event.stateChange false] ∧
    (play (pause s)).currentIndex = s.currentIndex + 1 +
      ((s.items.drop (s.currentIndex + 1)).takeWhile isBreak).length ∧
    (play (pause s)).isShowingSpecialContent = false ∧
    (play (pause s)).countdownActive = false ∧
    (play (pause s)).specialPaused = false ∧
    (play (pause s)).events = s.events ++ [Event.countdownTick none, Event.stateChange false,
      Event.specialEnd, Event.stateChange true, Event.wordChange, Event.progress] := by
  have hp : pause s = { s with countdownActive := false, specialPaused := true, isPlaying := false, pendingTimer := none, events := s.events ++ [Event.countdownTick none] ++ [Event.stateChange false] } := by
    rw [pause, if_pos hplay, if_pos hcd]
  have hpp : play (pause s) = advanceToNextTop { s with countdownActive := false, specialPaused := false, isPlaying := true, pendingTimer := none, isShowingSpecialContent := false, events := s.events ++ [Event.countdownTick none] ++ [Event.stateChange false] ++ [Event.specialEnd] ++ [Event.stateChange true] } := by
    rw [hp, play]
    rfl
  have hword2 : ({ s with countdownActive := false, specialPaused := false, isPlaying := true, pendingTimer := none, isShowingSpecialContent := false, events := s.events ++ [Event.countdownTick none] ++ [Event.stateChange false] ++ [Event.specialEnd] ++ [Event.stateChange true] } : State).items.get? (({ s with countdownActive := false, specialPaused := false, isPlaying := true, pendingTimer := none, isShowingSpecialContent := false, events := s.events ++ [Event.countdownTick none] ++ [Event.stateChange false] ++ [Event.specialEnd] ++ [Event.stateChange true] } : State).currentIndex + 1 + ((({ s with countdownActive := false, specialPaused := false, isPlaying := true, pendingTimer := none, isShowingSpecialContent := false, events := s.events ++ [Event.countdownTick none] ++ [Event.stateChange false] ++ [Event.specialEnd] ++ [Event.stateChange true] } : State).items.drop (({ s with countdownActive := false, specialPaused := false, isPlaying := true, pendingTimer := none, isShowingSpecialContent := false, events := s.events ++ [Event.countdownTick none] ++ [Event.stateChange false] ++ [Event.specialEnd] ++ [Event.stateChange true] } : State).currentIndex + 1)).takeWhile isBreak).length) = some (Item.word v) := hword
  have hfin : play (pause s) = { s with countdownActive := false, specialPaused := false, isPlaying := true, isShowingSpecialContent := false, currentIndex := s.currentIndex + 1 + ((s.items.drop (s.currentIndex + 1)).takeWhile isBreak).length, easeInCount := s.easeInCount + 1, pendingTimer := some Timer.word, events := s.events ++ [Event.countdownTick none] ++ [Event.stateChange false] ++ [Event.specialEnd] ++ [Event.stateChange true] ++ [Event.wordChange, Event.progress] } := by
    rw [hpp]
    rw [show advanceToNextTop { s with countdownActive := false, specialPaused := false, isPlaying := true, pendingTimer := none, isShowingSpecialContent := false, events := s.events ++ [Event.countdownTick none] ++ [Event.stateChange false] ++ [Event.specialEnd] ++ [Event.stateChange true] } = advanceToNextF (({ s with countdownActive := false, specialPaused := false, isPlaying := true, pendingTimer := none, isShowingSpecialContent := false, events := s.events ++ [Event.countdownTick none] ++ [Event.stateChange false] ++ [Event.specialEnd] ++ [Event.stateChange true] } : State).items.length + 1 + 1) { s with countdownActive := false, specialPaused := false, isPlaying := true, pendingTimer := none, isShowingSpecialContent := false, events := s.events ++ [Event.countdownTick none] ++ [Event.stateChange false] ++ [Event.specialEnd] ++ [Event.stateChange true] } from rfl]
    rw [advanceToNextF_to_word _ _ v hword2]
    rw [scheduleNext]
    rfl
  refine ⟨by rw [hp], by rw [hp]; exact hshow, by rw [hp], by rw [hp]; simp,
    by rw [hfin], by rw [hfin], by rw [hfin], by rw [hfin], by rw [hfin]; simp⟩


/-- Claim C8, counterexample: resuming from a paused special item crosses the
following paragraph break silently: the engine lands on the word after the
break but no paragraph-break signal is emitted (and hence no 500 ms break
pause is scheduled), contradicting the claimed break signal on resume. -/
theorem c8_counterexample :
    (play (pause { blankState with items := [Item.special "c" "h", Item.pbreak, Item.word "w"], isPlaying := true, countdownActive := true, isShowingSpecialContent := true, specialCountdown := 5 })).currentIndex = 2 ∧
    ({ blankState with items := [Item.special "c" "h", Item.pbreak, Item.word "w"], isPlaying := true, countdownActive := true, isShowingSpecialContent := true, specialCountdown := 5 } : State).items.get? 1 = some Item.pbreak ∧
    Event.paragraphBreak ∉ (play (pause { blankState with items := [Item.special "c" "h", Item.pbreak, Item.word "w"], isPlaying := true, countdownActive := true, isShowingSpecialContent := true, specialCountdown := 5 })).events :=
  ⟨by decide, by decide, by decide⟩

theorem c8_pause_resume_witness :
    (pause { blankState with items := [Item.special "c" "h", Item.pbreak, Item.word "w"], isPlaying := true, countdownActive := true, isShowingSpecialContent := true, specialCountdown := 5 }).countdownActive = false ∧
    (play (pause { blankState with items := [Item.special "c" "h", Item.pbreak, Item.word "w"], isPlaying := true, countdownActive := true, isShowingSpecialContent := true, specialCountdown := 5 })).countdownActive = false :=
  ⟨(c8_pause_resume { blankState with items := [Item.special "c" "h", Item.pbreak, Item.word "w"], isPlaying := true, countdownActive := true, isShowingSpecialContent := true, specialCountdown := 5 } "w" rfl rfl rfl (by decide)).1,
   (c8_pause_resume { blankState with items := [Item.special "c" "h", Item.pbreak, Item.word "w"], isPlaying := true, countdownActive := true, isShowingSpecialContent := true, specialCountdown := 5 } "w" rfl rfl rfl (by decide)).2.2.2.2.2.2.1⟩

/-! ### Claim C9: helper lemmas about the navigation scans -/

theorem mem_of_get?_eq_some {α : Type} {l : List α} {n : Nat} {a : α}
    (h : l.get? n = some a) : a ∈ l := by
  induction l generalizing n with
  | nil => cases h
  | cons x rest ih =>
    cases n with
    | zero =>
      cases h
      exact List.mem_cons_self _ _
    | succ m => exact List.mem_cons_of_mem _ (ih h)

theorem countWordsBefore_le (items : List Item) (n : Nat) :
    countWordsBefore items n ≤ items.countP isWord := by
  unfold countWordsBefore
  conv_rhs => rw [← List.take_append_drop n items]
  rw [List.countP_append]
  omega

theorem getD_mem_of_lt {l : List Nat} {n : Nat} (h : n < l.length) : l.getD n 0 ∈ l := by
  induction l generalizing n with
  | nil => simp at h
  | cons x rest ih =>
    cases n with
    | zero => exact List.mem_cons_self _ _
    | succ m => exact List.mem_cons_of_mem _ (ih (by simpa using h))

theorem lastIdxLtAux_none {l : List Nat} {c : Nat} (hall : ∀ y ∈ l, ¬ y < c) :
    ∀ i acc, lastIdxLtAux l c i acc = acc := by
  induction l with
  | nil => intro i acc; rfl
  | cons x rest ih =>
    intro i acc
    rw [lastIdxLtAux, if_neg (hall x (List.mem_cons_self _ _))]
    exact ih (fun y hy => hall y (List.mem_cons_of_mem _ hy)) _ _

theorem lastIdxLtAux_sorted {l : List Nat} {c : Nat} (hs : l.Pairwise (· < ·)) :
    ∀ i acc, lastIdxLtAux l c i acc =
      if (l.takeWhile (fun y => decide (y < c))).length = 0 then acc
      else i + (l.takeWhile (fun y => decide (y < c))).length - 1 := by
  induction l with
  | nil => intro i acc; simp [lastIdxLtAux]
  | cons x rest ih =>
    intro i acc
    rw [lastIdxLtAux]
    by_cases hx : x < c
    · rw [if_pos hx]
      rw [ih (List.pairwise_cons.mp hs).2 (i + 1) i]
      rw [List.takeWhile_cons_of_pos (by simpa using hx)]
      simp only [List.length_cons]
      split <;> split <;> omega
    · rw [if_neg hx]
      have hall : ∀ y ∈ rest, ¬ y < c := by
        intro y hy
        have hxy := (List.pairwise_cons.mp hs).1 y hy
        omega
      rw [lastIdxLtAux_none hall]
      rw [List.takeWhile_cons_of_neg (by simpa using hx)]
      simp

theorem tw_len_gt {l : List Nat} {c j : Nat} (hs : l.Pairwise (· < ·))
    (hj : j < l.length) (hv : l.getD j 0 < c) :
    j < (l.takeWhile (fun y => decide (y < c))).length := by
  induction l generalizing j with
  | nil => simp at hj
  | cons x rest ih =>
    have hx : x < c := by
      cases j with
      | zero => simpa using hv
      | succ jj =>
        have hjj : jj < rest.length := by simpa using hj
        have hmem : rest.getD jj 0 ∈ rest := getD_mem_of_lt hjj
        have h2 := (List.pairwise_cons.mp hs).1 _ hmem
        have hv2 : rest.getD jj 0 < c := by simpa using hv
        omega
    rw [List.takeWhile_cons_of_pos (by simpa using hx)]
    cases j with
    | zero => simp
    | succ jj =>
      have h3 := ih (List.pairwise_cons.mp hs).2 (j := jj)
        (by simpa using hj) (by simpa using hv)
      simpa using h3

theorem tw_getD_lt {l : List Nat} {c t : Nat}
    (ht : t < (l.takeWhile (fun y => decide (y < c))).length) : l.getD t 0 < c := by
  induction l generalizing t with
  | nil => simp at ht
  | cons x rest ih =>
    by_cases hx : x < c
    · rw [List.takeWhile_cons_of_pos (by simpa using hx)] at ht
      cases t with
      | zero => simpa using hx
      | succ tt =>
        have h2 := ih (t := tt) (by simpa using ht)
        simpa using h2
    · rw [List.takeWhile_cons_of_neg (by simpa using hx)] at ht
      simp at ht

theorem tw_len_at {l : List Nat} (hs : l.Pairwise (· < ·)) :
    ∀ {t : Nat}, t < l.length →
      (l.takeWhile (fun y => decide (y < l.getD t 0))).length = t := by
  induction l with
  | nil => intro t ht; simp at ht
  | cons x rest ih =>
    intro t ht
    cases t with
    | zero =>
      rw [List.takeWhile_cons_of_neg (by simp)]
      rfl
    | succ tt =>
      have htt : tt < rest.length := by simpa using ht
      have hx : x < (x :: rest).getD (tt + 1) 0 := by
        have hmem : rest.getD tt 0 ∈ rest := getD_mem_of_lt htt
        simpa using (List.pairwise_cons.mp hs).1 _ hmem
      rw [List.takeWhile_cons_of_pos (by simpa using hx)]
      simp only [List.length_cons, List.getD_cons_succ]
      rw [ih (List.pairwise_cons.mp hs).2 htt]

theorem findSpecialDownAux_nospec {items : List Item} {lo hi : Nat}
    (hns : ∀ it ∈ items, isSpecial it = false) :
    ∀ i acc, findSpecialDownAux items lo hi i acc = acc := by
  induction items with
  | nil => intro i acc; rfl
  | cons it rest ih =>
    intro i acc
    rw [findSpecialDownAux]
    rw [if_neg (by simp [hns it (List.mem_cons_self _ _)])]
    exact ih (fun x hx => hns x (List.mem_cons_of_mem _ hx)) _ _

theorem itemIdxOfWordAux_spec {items : List Item} {t : Nat} :
    ∀ i wc, wc ≤ t → t - wc < items.countP isWord →
    ∃ j, itemIdxOfWordAux items t i wc = some (i + j) ∧
      (items.get? j).any isWord = true ∧
      (items.take j).countP isWord + wc = t := by
  induction items with
  | nil =>
    intro i wc h1 h2
    simp [List.countP_nil] at h2
  | cons it rest ih =>
    intro i wc h1 h2
    rw [itemIdxOfWordAux]
    by_cases hw : isWord it = true
    · rw [if_pos hw]
      by_cases heq : wc = t
      · rw [if_pos heq]
        exact ⟨0, by simp, by simp [hw], by simp [heq]⟩
      · rw [if_neg heq]
        have h1' : wc + 1 ≤ t := by omega
        have h2' : t - (wc + 1) < rest.countP isWord := by
          rw [List.countP_cons, if_pos hw] at h2
          omega
        obtain ⟨j, hj, hjw, hjc⟩ := ih (i + 1) (wc + 1) h1' h2'
        refine ⟨j + 1, ?_, ?_, ?_⟩
        · rw [hj]
          congr 1
          omega
        · exact hjw
        · rw [List.take_succ_cons, List.countP_cons, if_pos hw]
          omega
    · rw [if_neg hw]
      have h2' : t - wc < rest.countP isWord := by
        rw [List.countP_cons, if_neg hw] at h2
        omega
      obtain ⟨j, hj, hjw, hjc⟩ := ih (i + 1) wc h1 h2'
      refine ⟨j + 1, ?_, ?_, ?_⟩
      · rw [hj]
        congr 1
        omega
      · exact hjw
      · rw [List.take_succ_cons, List.countP_cons, if_neg hw]
        omega

theorem itemIdxOfWord_spec {items : List Item} {t : Nat} (h : t < items.countP isWord) :
    ∃ j, itemIdxOfWordAux items t 0 0 = some j ∧
      (items.get? j).any isWord = true ∧ countWordsBefore items j = t := by
  obtain ⟨j, hj, hjw, hjc⟩ := @itemIdxOfWordAux_spec items t 0 0
    (Nat.zero_le t) (by simpa using h)
  exact ⟨j, by simpa using hj, hjw, by unfold countWordsBefore; omega⟩


theorem prevSentenceCore_eval (now : Int) (s : State) (j tIdx k : Nat)
    (hplay : s.isPlaying = true)
    (hk : s.currentIndex = k + 1)
    (hnospec : ∀ it ∈ s.items, isSpecial it = false)
    (htIdx : (if ((!s.isPlaying) = false ∧ now - s.lastBackPressTime < 800 ∧
        0 ≤ s.lastSkipToSentenceIdx ∧
        ((lastIdxLt s.sentenceStarts (countWordsBefore s.items s.currentIndex) : Int) =
          s.lastSkipToSentenceIdx) ∧
        0 < lastIdxLt s.sentenceStarts (countWordsBefore s.items s.currentIndex))
      then lastIdxLt s.sentenceStarts (countWordsBefore s.items s.currentIndex) - 1
      else lastIdxLt s.sentenceStarts (countWordsBefore s.items s.currentIndex)) = tIdx)
    (hj : itemIdxOfWordAux s.items (s.sentenceStarts.getD tIdx 0) 0 0 = some j) :
    prevSentenceCore now s = { s with currentIndex := j, easeInCount := 0, pendingTimer := some Timer.word, lastBackPressTime := now, lastSkipToSentenceIdx := (tIdx : Int), events := s.events ++ [Event.wordChange, Event.progress] } := by
  have hfsd : findSpecialDown s.items j k = none := findSpecialDownAux_nospec hnospec 0 none
  have hcf : (s.items.get? (k + 1)).any isSpecial = false := by
    cases hg : s.items.get? (k + 1) with
    | none => rfl
    | some it => simp [hnospec it (mem_of_get?_eq_some hg)]
  rw [prevSentenceCore]
  rw [htIdx, hj]
  simp only [Option.getD_some]
  rw [hk]
  simp only []
  rw [hfsd]
  simp only []
  rw [hcf]
  simp [hplay, scheduleNext]


theorem lastIdxLt_eq_sub_one {l : List Nat} {c : Nat} (hs : l.Pairwise (· < ·)) :
    lastIdxLt l c = (l.takeWhile (fun y => decide (y < c))).length - 1 ∨
      (l.takeWhile (fun y => decide (y < c))).length = 0 := by
  unfold lastIdxLt
  rw [lastIdxLtAux_sorted hs 0 0]
  split
  · right
    assumption
  · left
    omega

/-- Claim C9: while playback is active with a fresh back-press state, no
special items, and strictly increasing sentence starts, if at least two
sentence starts lie strictly before the current word position, then a single
previousSentence press lands on the sentence start at index t (the last start
below the current word count), and a second press within 800 ms lands on the
sentence start at index t - 1, one sentence further back. -/
theorem c9_double_back_press (s : State) (now1 now2 : Int)
    (hplay : s.isPlaying = true)
    (hfresh : s.lastSkipToSentenceIdx = -1)
    (hnospec : ∀ it ∈ s.items, isSpecial it = false)
    (hsorted : s.sentenceStarts.Pairwise (· < ·))
    (h800 : now2 - now1 < 800)
    (htwo : ∃ j0, 1 ≤ j0 ∧ j0 < s.sentenceStarts.length ∧
      s.sentenceStarts.getD j0 0 < countWordsBefore s.items s.currentIndex) :
    1 ≤ lastIdxLt s.sentenceStarts (countWordsBefore s.items s.currentIndex) ∧
    ∃ j1 j2,
      (previousSentence now1 s).currentIndex = j1 ∧
      countWordsBefore s.items j1 = s.sentenceStarts.getD
        (lastIdxLt s.sentenceStarts (countWordsBefore s.items s.currentIndex)) 0 ∧
      (previousSentence now2 (previousSentence now1 s)).currentIndex = j2 ∧
      countWordsBefore s.items j2 = s.sentenceStarts.getD
        (lastIdxLt s.sentenceStarts (countWordsBefore s.items s.currentIndex) - 1) 0 := by
  obtain ⟨j0, hj01, hj0len, hj0lt⟩ := htwo
  have hj0T : j0 < (s.sentenceStarts.takeWhile
      (fun y => decide (y < countWordsBefore s.items s.currentIndex))).length :=
    tw_len_gt hsorted hj0len hj0lt
  have hTlen : (s.sentenceStarts.takeWhile
      (fun y => decide (y < countWordsBefore s.items s.currentIndex))).length ≤
      s.sentenceStarts.length :=
    (List.takeWhile_prefix _).length_le
  have ht : lastIdxLt s.sentenceStarts (countWordsBefore s.items s.currentIndex) =
      (s.sentenceStarts.takeWhile
        (fun y => decide (y < countWordsBefore s.items s.currentIndex))).length - 1 := by
    rcases lastIdxLt_eq_sub_one (c := countWordsBefore s.items s.currentIndex) hsorted with h | h
    · exact h
    · omega
  have ht1 : 1 ≤ lastIdxLt s.sentenceStarts (countWordsBefore s.items s.currentIndex) := by
    omega
  have htlen : lastIdxLt s.sentenceStarts (countWordsBefore s.items s.currentIndex) <
      s.sentenceStarts.length := by omega
  have hW : s.sentenceStarts.getD
      (lastIdxLt s.sentenceStarts (countWordsBefore s.items s.currentIndex)) 0 <
      countWordsBefore s.items s.currentIndex :=
    tw_getD_lt (by omega)
  have hWcount : s.sentenceStarts.getD
      (lastIdxLt s.sentenceStarts (countWordsBefore s.items s.currentIndex)) 0 <
      s.items.countP isWord :=
    lt_of_lt_of_le hW (countWordsBefore_le _ _)
  obtain ⟨j1, hj1eq, hj1w, hj1c⟩ := itemIdxOfWord_spec hWcount
  have hcne : s.currentIndex ≠ 0 := by
    intro h0
    rw [h0] at hj0lt
    simp [countWordsBefore] at hj0lt
  obtain ⟨k, hk⟩ := Nat.exists_eq_succ_of_ne_zero hcne
  have hT2 : (s.sentenceStarts.takeWhile (fun y => decide (y < s.sentenceStarts.getD
      (lastIdxLt s.sentenceStarts (countWordsBefore s.items s.currentIndex)) 0))).length =
      lastIdxLt s.sentenceStarts (countWordsBefore s.items s.currentIndex) :=
    tw_len_at hsorted htlen
  have hlast2 : lastIdxLt s.sentenceStarts (s.sentenceStarts.getD
      (lastIdxLt s.sentenceStarts (countWordsBefore s.items s.currentIndex)) 0) =
      lastIdxLt s.sentenceStarts (countWordsBefore s.items s.currentIndex) - 1 := by
    rcases lastIdxLt_eq_sub_one (c := s.sentenceStarts.getD
      (lastIdxLt s.sentenceStarts (countWordsBefore s.items s.currentIndex)) 0) hsorted with h | h
    · rw [hT2] at h
      exact h
    · rw [hT2] at h
      omega
  have hW2 : s.sentenceStarts.getD
      (lastIdxLt s.sentenceStarts (countWordsBefore s.items s.currentIndex) - 1) 0 <
      s.sentenceStarts.getD
      (lastIdxLt s.sentenceStarts (countWordsBefore s.items s.currentIndex)) 0 := by
    have h3 := tw_getD_lt (l := s.sentenceStarts) (c := s.sentenceStarts.getD
      (lastIdxLt s.sentenceStarts (countWordsBefore s.items s.currentIndex)) 0)
      (t := lastIdxLt s.sentenceStarts (countWordsBefore s.items s.currentIndex) - 1)
      (by rw [hT2]; omega)
    exact h3
  have hW2count : s.sentenceStarts.getD
      (lastIdxLt s.sentenceStarts (countWordsBefore s.items s.currentIndex) - 1) 0 <
      s.items.countP isWord := by omega
  obtain ⟨j2, hj2eq, hj2w, hj2c⟩ := itemIdxOfWord_spec hW2count
  have hj1ne : j1 ≠ 0 := by
    intro h0
    rw [h0] at hj1c
    rw [show countWordsBefore s.items 0 = 0 from rfl] at hj1c
    omega
  obtain ⟨k2, hk2⟩ := Nat.exists_eq_succ_of_ne_zero hj1ne
  have hres1 : previousSentence now1 s = { clearSpecialContent s with
      currentIndex := j1, easeInCount := 0, pendingTimer := some Timer.word,
      lastBackPressTime := now1,
      lastSkipToSentenceIdx :=
        ((lastIdxLt s.sentenceStarts (countWordsBefore s.items s.currentIndex) : Int)),
      events := (clearSpecialContent s).events ++ [Event.wordChange, Event.progress] } := by
    rw [previousSentence]
    refine prevSentenceCore_eval now1 (clearSpecialContent s) j1
      (lastIdxLt s.sentenceStarts (countWordsBefore s.items s.currentIndex)) k
      (by simpa using hplay) (by simpa using hk) (by simpa using hnospec) ?_
      (by simpa using hj1eq)
    simp only [clearSpecialContent_isPlaying, clearSpecialContent_lastBackPressTime,
      clearSpecialContent_lastSkipToSentenceIdx, clearSpecialContent_sentenceStarts,
      clearSpecialContent_items, clearSpecialContent_currentIndex]
    rw [if_neg]
    intro hcon
    rw [hfresh] at hcon
    have h4 := hcon.2.2.1
    omega
  have hcall2 := prevSentenceCore_eval now2
    (clearSpecialContent (previousSentence now1 s)) j2
    (lastIdxLt s.sentenceStarts (countWordsBefore s.items s.currentIndex) - 1) k2
    (by rw [hres1]; simpa using hplay)
    (by rw [hres1]; simpa using hk2)
    (by rw [hres1]; simpa using hnospec)
    (by
      rw [hres1]
      simp only [clearSpecialContent_isPlaying, clearSpecialContent_lastBackPressTime,
        clearSpecialContent_lastSkipToSentenceIdx, clearSpecialContent_sentenceStarts,
        clearSpecialContent_items, clearSpecialContent_currentIndex]
      rw [hj1c, hlast2]
      rw [if_neg]
      intro hcon
      have h5 := hcon.2.2.2.1
      have h6 := ht1
      omega)
    (by rw [hres1]; simpa [hj1c, hlast2] using hj2eq)
  refine ⟨ht1, j1, j2, by rw [hres1], hj1c, ?_, hj2c⟩
  rw [show previousSentence now2 (previousSentence now1 s) =
    prevSentenceCore now2 (clearSpecialContent (previousSentence now1 s)) from rfl]
  rw [hcall2]


theorem c9_double_back_press_witness :
    1 ≤ lastIdxLt c9demo.sentenceStarts (countWordsBefore c9demo.items c9demo.currentIndex) ∧
    ∃ j1 j2,
      (previousSentence 1000 c9demo).currentIndex = j1 ∧
      countWordsBefore c9demo.items j1 = c9demo.sentenceStarts.getD
        (lastIdxLt c9demo.sentenceStarts (countWordsBefore c9demo.items c9demo.currentIndex)) 0 ∧
      (previousSentence 1500 (previousSentence 1000 c9demo)).currentIndex = j2 ∧
      countWordsBefore c9demo.items j2 = c9demo.sentenceStarts.getD
        (lastIdxLt c9demo.sentenceStarts (countWordsBefore c9demo.items c9demo.currentIndex) - 1) 0 :=
  c9_double_back_press c9demo 1000 1500 rfl rfl (by decide) (by decide) (by decide)
    ⟨2, by decide, by decide, by decide⟩

end Tempo
